import Mathlib

/-!
# hateoas: path matching and link synthesis

A shallow embedding of `hateoas.go` (package `hateoas`) and of the parts of the Go
standard library it calls (`strings.Join`, `strings.Replace`, `regexp.MustCompile`,
`Regexp.MatchString`, `Regexp.FindAllString`, `Regexp.Split`).

Go strings are modelled by Lean strings (sequences of characters, i.e. valid UTF-8
text); offsets into a string count characters.  A Go string that is not valid UTF-8 has
no counterpart here: the keys of the catalog are taken to be valid, as decoded YAML text
is, and on a request path that is not valid, `AddLinks` panics, because the pattern it
hands to `regexp.MustCompile` contains the bytes of the path and "invalid UTF-8" is a
parse error.

The package-level variable `swagger` is passed explicitly; a function that is followed
through a caller's state (`GetInfo` in `RootResponse`) returns it next to its result.

A panic is the `Except.error` result.  The only panics of this package come from
`regexp.MustCompile`.  What `MustCompile` does with a pattern is given by `mustCompile`:
by the model of the pattern syntax below where the model covers the pattern, and by a
parameter of type `Library` where it does not.
-/

namespace Hateoas

/-! ## Go standard library: `strings` -/

/-- Go `strings.Join(elems, "")`: the concatenation of the elements. -/
def stringsJoin (elems : List String) : String :=
  String.mk (elems.map String.data).flatten

/-- The scanning loop of `strings.Replace` for a non-empty `old`: `budget` is the number of
replacements still allowed (`none` for no limit) and `skip` the number of characters of
the occurrence just replaced that are still to be dropped. -/
def replaceLoop (old new : List Char) : Option Nat → Nat → List Char → List Char
  | _, _, [] => []
  | budget, skip + 1, _ :: t => replaceLoop old new budget skip t
  | budget, 0, c :: t =>
    if budget ≠ some 0 ∧ old.isPrefixOf (c :: t) then
      new ++ replaceLoop old new (budget.map Nat.pred) (old.length - 1) t
    else
      c :: replaceLoop old new budget 0 t

/-- The loop of `strings.Replace` for an empty `old`: `new` is inserted before each
character and at the end, as long as the budget lasts. -/
def replaceEmpty (new : List Char) : Option Nat → List Char → List Char
  | budget, [] => if budget ≠ some 0 then new else []
  | budget, c :: t =>
    if budget ≠ some 0 then new ++ c :: replaceEmpty new (budget.map Nat.pred) t
    else c :: t

/-- Go `strings.Replace(s, old, new, n)`: the first `n` non-overlapping occurrences of
`old` replaced by `new`, all of them when `n < 0`. -/
def stringsReplace (s old new : String) (n : Int) : String :=
  let budget : Option Nat := if n < 0 then none else some n.toNat
  if old.data = [] then String.mk (replaceEmpty new.data budget s.data)
  else String.mk (replaceLoop old.data new.data budget 0 s.data)

/-! ## Go standard library: `regexp`

The model covers the pattern syntax that this package can reach and that matters for
its behaviour: literals, `.`, `^`, `$`, groups, alternation, the repetitions `*`, `+`,
`?` and their non-greedy forms, bracket expressions with ranges and negation, the class
escapes `\d \s \w \D \S \W`, escaped punctuation, the control escapes and `\A`, `\z`.
Counted repetition, flags and named groups, Unicode and POSIX classes, `\b`, `\B`, `\Q`
and numeric escapes are reported by `parse` and `compile` as `unmodelled`, which is
neither a Go error nor a compiled pattern: it says that the model has no answer, and
`mustCompile` then asks the `Library` parameter.  The same holds for the limits of the
library on the size and the nesting depth of a pattern, which the parser of the model
does not have: `mustCompile` trusts the model only for a pattern that is `isSmall`.
Matching is a backtracking search whose order of preference is the leftmost-first order
of package `regexp`.
-/

/-- The error codes of `regexp/syntax`, and `unmodelled` for a pattern that uses syntax
outside the modelled fragment.  The parser of the model raises the first eight codes and
`unmodelled`; the other codes are raised only by the library itself (`Library`). -/
inductive ErrorCode where
  | missingParen
  | unexpectedParen
  | missingRepeatArgument
  | invalidRepeatOp
  | trailingBackslash
  | invalidEscape
  | missingBracket
  | invalidCharRange
  | internalError
  | invalidCharClass
  | invalidNamedCapture
  | invalidPerlOp
  | invalidRepeatSize
  | invalidUTF8
  | nestingDepth
  | large
  | unmodelled
  deriving DecidableEq

/-- One member of a bracket expression: a set of inclusive ranges, or its complement
(for the escapes `\D`, `\S`, `\W`). -/
structure ClassItem where
  negated : Bool
  ranges : List (Char × Char)
  deriving DecidableEq

/-- Whether a range list contains the character. -/
def inRanges (ranges : List (Char × Char)) (c : Char) : Bool :=
  ranges.any fun r => decide (r.1.toNat ≤ c.toNat) && decide (c.toNat ≤ r.2.toNat)

/-- Whether the class member contains the character. -/
def ClassItem.contains (i : ClassItem) (c : Char) : Bool :=
  xor i.negated (inRanges i.ranges c)

/-- The syntax tree of a parsed pattern (`regexp/syntax.Regexp`), for the flags that
`regexp.Compile` uses: `^` and `$` are begin and end of text, `.` excludes newline. -/
inductive Regexp where
  | emptyMatch
  | literal (c : Char)
  | charClass (negated : Bool) (items : List ClassItem)
  | anyCharNotNL
  | beginText
  | endText
  | capture (sub : Regexp)
  | star (greedy : Bool) (sub : Regexp)
  | plus (greedy : Bool) (sub : Regexp)
  | quest (greedy : Bool) (sub : Regexp)
  | concat (a b : Regexp)
  | alternate (a b : Regexp)
  deriving DecidableEq

/-- The ranges of `\d`. -/
def perlDigit : List (Char × Char) := [('0', '9')]

/-- The ranges of `\s`. -/
def perlSpace : List (Char × Char) := [('\t', '\n'), ('\x0c', '\r'), (' ', ' ')]

/-- The ranges of `\w`. -/
def perlWord : List (Char × Char) := [('0', '9'), ('A', 'Z'), ('_', '_'), ('a', 'z')]

/-- The class escapes `\d \s \w \D \S \W` (`parsePerlClassEscape`). -/
def perlClass (c : Char) : Option ClassItem :=
  if c = 'd' then some ⟨false, perlDigit⟩
  else if c = 'D' then some ⟨true, perlDigit⟩
  else if c = 's' then some ⟨false, perlSpace⟩
  else if c = 'S' then some ⟨true, perlSpace⟩
  else if c = 'w' then some ⟨false, perlWord⟩
  else if c = 'W' then some ⟨true, perlWord⟩
  else none

/-- ASCII letter or digit (`isalnum` of `regexp/syntax`). -/
def isalnum (c : Char) : Bool :=
  inRanges [('0', '9'), ('A', 'Z'), ('a', 'z')] c

/-- The character after a backslash, read as a single-character escape (`parseEscape`):
an escaped ASCII character that is no letter or digit is itself; `\a \f \n \r \t \v`
are control characters; octal and hexadecimal escapes are outside the modelled
fragment; everything else is an invalid escape. -/
def parseEscape : List Char → Except ErrorCode (Char × List Char)
  | [] => .error .trailingBackslash
  | c :: t =>
    if c.toNat < 128 ∧ isalnum c = false then .ok (c, t)
    else if c = 'a' then .ok ('\x07', t)
    else if c = 'f' then .ok ('\x0c', t)
    else if c = 'n' then .ok ('\n', t)
    else if c = 'r' then .ok ('\r', t)
    else if c = 't' then .ok ('\t', t)
    else if c = 'v' then .ok ('\x0b', t)
    else if c = 'x' ∨ c = '0' then .error .unmodelled
    else if inRanges [('1', '7')] c then
      match t with
      | d :: _ => if inRanges [('0', '7')] d then .error .unmodelled else .error .invalidEscape
      | [] => .error .invalidEscape
    else .error .invalidEscape

/-- One character of a bracket expression (`parseClassChar`). -/
def parseClassChar : List Char → Except ErrorCode (Char × List Char)
  | [] => .error .missingBracket
  | c :: t => if c = '\\' then parseEscape t else .ok (c, t)

/-- Whether `:]` occurs in the text, which makes a preceding `[:` a POSIX class name. -/
def hasColonBracket : List Char → Bool
  | [] => false
  | c :: t => (c == ':' && t.head? == some ']') || hasColonBracket t

/-- A single character or a simple range `lo-hi` of a bracket expression; `[a-]` means
`a` or `-`. -/
def parseClassRange (t : List Char) : Except ErrorCode (ClassItem × List Char) :=
  match parseClassChar t with
  | .error e => .error e
  | .ok (lo, t1) =>
    match t1 with
    | d :: c :: t2 =>
      if d = '-' ∧ c ≠ ']' then
        match parseClassChar (c :: t2) with
        | .error e => .error e
        | .ok (hi, t3) =>
          if hi.toNat < lo.toNat then .error .invalidCharRange
          else .ok (⟨false, [(lo, hi)]⟩, t3)
      else .ok (⟨false, [(lo, lo)]⟩, t1)
    | _ => .ok (⟨false, [(lo, lo)]⟩, t1)

/-- One member of a bracket expression (the body of the loop of `parseClass`): POSIX
classes `[:name:]` and Unicode classes `\p` are outside the modelled fragment. -/
def parseClassMember (t : List Char) : Except ErrorCode (ClassItem × List Char) :=
  match t with
  | a :: b :: u =>
    if a = '[' ∧ b = ':' ∧ u ≠ [] ∧ hasColonBracket u = true then .error .unmodelled
    else if a = '\\' ∧ (b = 'p' ∨ b = 'P') then .error .unmodelled
    else if a = '\\' ∧ (perlClass b).isSome then
      match perlClass b with
      | some i => .ok (i, u)
      | none => parseClassRange t
    else parseClassRange t
  | _ => parseClassRange t

/-- The members of a bracket expression up to its closing `]` (the loop of
`parseClass`); `first` is true before the first member, where `]` is a literal.  Each
member uses up one unit of `fuel`, of which `parseClass` gives enough. -/
def parseClassItems : Nat → Bool → List Char → Except ErrorCode (List ClassItem × List Char)
  | 0, _, _ => .error .unmodelled
  | fuel + 1, first, t =>
    if first = false ∧ t.head? = some ']' then .ok ([], t.tail)
    else
      match parseClassMember t with
      | .error e => .error e
      | .ok (i, t1) =>
        match parseClassItems fuel false t1 with
        | .error e => .error e
        | .ok (is, t2) => .ok (i :: is, t2)

/-- A bracket expression, the text after its `[` (`parseClass`). -/
def parseClass (t : List Char) : Except ErrorCode (Regexp × List Char) :=
  let negated := t.head? = some '^'
  let body := if negated then t.tail else t
  match parseClassItems (body.length + 1) true body with
  | .error e => .error e
  | .ok (is, rest) => .ok (.charClass negated is, rest)

/-- The grammar level being parsed: an alternation, a concatenation, or one piece (an
atom with its repetition operator). -/
inductive Level where
  | alt
  | seq
  | piece
  deriving DecidableEq

/-- Whether the character is one of the repetition operators `*`, `+`, `?`. -/
def isRepeatOp (c : Char) : Bool :=
  c == '*' || c == '+' || c == '?'

/-- The repetition operator after an atom, if any (`parser.repeat`): a following `?`
makes it non-greedy, and a second repetition operator is an error.  A `{` is a counted
repetition or a literal and is outside the modelled fragment. -/
def parseRepeat (atom : Regexp) (t : List Char) : Except ErrorCode (Regexp × List Char) :=
  match t with
  | [] => .ok (atom, [])
  | op :: t1 =>
    if isRepeatOp op then
      let greedy := t1.head? ≠ some '?'
      let t2 := if greedy then t1 else t1.tail
      let r : Regexp :=
        if op = '*' then .star greedy atom
        else if op = '+' then .plus greedy atom
        else .quest greedy atom
      match t2 with
      | [] => .ok (r, [])
      | c :: _ =>
        if isRepeatOp c then .error .invalidRepeatOp
        else if c = '{' then .error .unmodelled
        else .ok (r, t2)
    else if op = '{' then .error .unmodelled
    else .ok (atom, t)

/-- The escapes that are legal only outside a bracket expression, the text after the
backslash: `\A` and `\z` are anchors, `\C` is rejected, and `\b`, `\B`, `\Q`, `\p`, `\P`
are outside the modelled fragment; then the class escapes; then `parseEscape`. -/
def parseBackslash (t : List Char) : Except ErrorCode (Regexp × List Char) :=
  match t with
  | [] => .error .trailingBackslash
  | c :: t1 =>
    if c = 'A' then .ok (.beginText, t1)
    else if c = 'z' then .ok (.endText, t1)
    else if c = 'C' then .error .invalidEscape
    else if c = 'b' ∨ c = 'B' ∨ c = 'Q' ∨ c = 'p' ∨ c = 'P' then .error .unmodelled
    else
      match perlClass c with
      | some i => .ok (.charClass false [i], t1)
      | none =>
        match parseEscape t with
        | .error e => .error e
        | .ok (lit, t2) => .ok (.literal lit, t2)

/-- The recursive-descent reading of `regexp/syntax.Parse` with the Perl flags.  At
level `alt` and `seq` it stops before a `)` or at the end of the text; `(?` (flags,
named and non-capturing groups) is outside the modelled fragment.  Each call uses up
one unit of `fuel`; with the fuel that `compile` gives, the fuel does not run out. -/
def parse : Nat → Level → List Char → Except ErrorCode (Regexp × List Char)
  | 0, _, _ => .error .unmodelled
  | fuel + 1, .alt, t =>
    match parse fuel .seq t with
    | .error e => .error e
    | .ok (r, t1) =>
      match t1 with
      | [] => .ok (r, [])
      | c :: t2 =>
        if c = '|' then
          match parse fuel .alt t2 with
          | .error e => .error e
          | .ok (r2, t3) => .ok (.alternate r r2, t3)
        else .ok (r, t1)
  | fuel + 1, .seq, t =>
    match t with
    | [] => .ok (.emptyMatch, [])
    | c :: _ =>
      if c = ')' ∨ c = '|' then .ok (.emptyMatch, t)
      else
        match parse fuel .piece t with
        | .error e => .error e
        | .ok (r, t1) =>
          match parse fuel .seq t1 with
          | .error e => .error e
          | .ok (r2, t2) => .ok (.concat r r2, t2)
  | fuel + 1, .piece, t =>
    match t with
    | [] => .error .unmodelled
    | c :: t1 =>
      if c = '(' then
        if t1.head? = some '?' then .error .unmodelled
        else
          match parse fuel .alt t1 with
          | .error e => .error e
          | .ok (r, t2) =>
            match t2 with
            | [] => .error .missingParen
            | d :: t3 => if d = ')' then parseRepeat (.capture r) t3 else .error .missingParen
      else if isRepeatOp c then .error .missingRepeatArgument
      else if c = '{' then .error .unmodelled
      else if c = '[' then
        match parseClass t1 with
        | .error e => .error e
        | .ok (r, t2) => parseRepeat r t2
      else if c = '\\' then
        match parseBackslash t1 with
        | .error e => .error e
        | .ok (r, t2) => parseRepeat r t2
      else if c = '^' then parseRepeat .beginText t1
      else if c = '$' then parseRepeat .endText t1
      else if c = '.' then parseRepeat .anyCharNotNL t1
      else parseRepeat (.literal c) t1

/-- Go `regexp.Compile` on a pattern of the modelled fragment: the parsed pattern,
`unexpectedParen` for a `)` that closes nothing; `unmodelled` where the model has no
answer (syntax outside the fragment).  The limits of the library on size and nesting
depth are not part of this function, see `mustCompile`. -/
def compile (pattern : String) : Except ErrorCode Regexp :=
  match parse (3 * pattern.data.length + 3) .alt pattern.data with
  | .error e => .error e
  | .ok (r, []) => .ok r
  | .ok (_, _ :: _) => .error .unexpectedParen

/-- The iterations of a repetition: `step` gives the ways the body can match, each as
the text left after it, in order of preference.  An iteration that consumes nothing is
dropped; this does not change whether a match exists, nor, for a body that cannot match
the empty text, which match is preferred. -/
def starLoop (step : List Char → List (List Char)) (greedy : Bool) :
    Nat → List Char → List (List Char)
  | 0, s => [s]
  | fuel + 1, s =>
    let more := ((step s).filter fun r => r.length < s.length).flatMap (starLoop step greedy fuel)
    if greedy then more ++ [s] else s :: more

/-- Backtracking search: the ways the expression can match a prefix of `s`, each given
as the text left after the match, in the order of preference of the leftmost-first
semantics of package `regexp`.  `total` is the length of the whole text, so that `s` is
at the beginning of the text exactly when its length is `total`. -/
def run (total : Nat) : Regexp → List Char → List (List Char)
  | .emptyMatch, s => [s]
  | .literal c, s =>
    match s with
    | [] => []
    | d :: t => if d = c then [t] else []
  | .charClass negated items, s =>
    match s with
    | [] => []
    | d :: t => if xor negated (items.any fun i => i.contains d) then [t] else []
  | .anyCharNotNL, s =>
    match s with
    | [] => []
    | d :: t => if d = '\n' then [] else [t]
  | .beginText, s => if s.length = total then [s] else []
  | .endText, s => if s = [] then [s] else []
  | .capture sub, s => run total sub s
  | .star greedy sub, s => starLoop (run total sub) greedy s.length s
  | .plus greedy sub, s => (run total sub s).flatMap (starLoop (run total sub) greedy s.length)
  | .quest greedy sub, s => if greedy then run total sub s ++ [s] else s :: run total sub s
  | .concat a b, s => (run total a s).flatMap (run total b)
  | .alternate a b, s => run total a s ++ run total b s

/-- The leftmost match in `s` (the text from offset `pos` on): its begin and end offsets
in the whole text of length `total`. -/
def search (re : Regexp) (total : Nat) : (pos : Nat) → List Char → Option (Nat × Nat)
  | pos, [] => (run total re []).head?.map fun r => (pos, total - r.length)
  | pos, c :: t =>
    match (run total re (c :: t)).head? with
    | some r => some (pos, total - r.length)
    | none => search re total (pos + 1) t

/-- Go `Regexp.MatchString`: whether the text contains any match of the expression. -/
def matchString (re : Regexp) (s : String) : Bool :=
  (search re s.data.length 0 s.data).isSome

/-- The loop of `Regexp.allMatches` behind the `FindAll` functions: successive leftmost
matches from `pos` on; an empty match right after the previous match is skipped, and
after an empty match the search moves on by one character. -/
def allMatches (re : Regexp) (s : List Char) : Nat → (pos : Nat) → (prevMatchEnd : Option Nat) →
    List (Nat × Nat)
  | 0, _, _ => []
  | fuel + 1, pos, prevMatchEnd =>
    if s.length < pos then []
    else
      match search re s.length pos (s.drop pos) with
      | none => []
      | some (b, e) =>
        if e = pos then
          let rest := allMatches re s fuel (pos + 1) (some e)
          if some b = prevMatchEnd then rest else (b, e) :: rest
        else (b, e) :: allMatches re s fuel e (some e)

/-- Go `Regexp.FindAllStringIndex(s, -1)`: the begin and end offsets of the successive
non-overlapping matches. -/
def findAllStringIndex (re : Regexp) (s : String) : List (Nat × Nat) :=
  allMatches re s.data (s.data.length + 2) 0 none

/-- Go slice expression `s[b:e]` on a string. -/
def slice (s : List Char) (b e : Nat) : List Char :=
  (s.drop b).take (e - b)

/-- Go `Regexp.FindAllString(s, -1)`: the texts of the successive matches. -/
def findAllString (re : Regexp) (s : String) : List String :=
  (findAllStringIndex re s).map fun m => String.mk (slice s.data m.1 m.2)

/-- The loop of `Regexp.Split`: `beg` is the end of the previous match and `last` the
begin of the last match seen; a piece is emitted before each match that does not end at
offset 0, and the rest of the text after the last match unless that match begins at
the end of the text. -/
def splitLoop (s : List Char) : List (Nat × Nat) → (beg : Nat) → (last : Nat) → List String
  | [], beg, last => if last ≠ s.length then [String.mk (s.drop beg)] else []
  | m :: ms, beg, _ =>
    if m.2 ≠ 0 then String.mk (slice s beg m.1) :: splitLoop s ms m.2 m.1
    else splitLoop s ms m.2 m.1

/-- Go `Regexp.Split(s, -1)` for a non-empty pattern: the pieces of `s` between the
matches of the expression; the empty text gives one empty piece. -/
def split (re : Regexp) (s : String) : List String :=
  if s.data.length = 0 then [""]
  else splitLoop s.data (findAllStringIndex re s) 0 0

/-- A compiled pattern as far as `AddLinks` uses the one it builds from the request
path: its method `MatchString`. -/
structure Matcher where
  MatchString : String → Bool

/-- What package `regexp` does where the model of the pattern syntax has no answer.
`rejects` is the error, if any, with which the library refuses a pattern of the modelled
fragment for its size or its nesting depth (`large`, `nestingDepth`); `outside` is the
result of compiling a pattern with syntax outside the modelled fragment.  Nothing is
assumed about either: every theorem holds for every library. -/
structure Library where
  rejects : String → Option ErrorCode
  outside : String → Except ErrorCode Matcher

/-- A pattern too short for the limits of package `regexp`: at most 100 characters.  The
parser of the library looks at the nesting depth only from 1000 syntax nodes on and at
the size only from millions of nodes or characters on, and a pattern of the modelled
fragment has only a few nodes for each of its characters. -/
def isSmall (pattern : String) : Bool :=
  decide (pattern.data.length ≤ 100)

/-- Go `regexp.MustCompile`; `Except.error` is its panic.  A pattern that is not small
is first put to the limits of the library.  Then the model decides, and the library
where the model has no answer. -/
def mustCompile (regexp : Library) (pattern : String) : Except ErrorCode Matcher :=
  match (if isSmall pattern then none else regexp.rejects pattern) with
  | some e => .error e
  | none =>
    match compile pattern with
    | .ok re => .ok ⟨matchString re⟩
    | .error .unmodelled => regexp.outside pattern
    | .error e => .error e

/-! ## Package `hateoas` -/

/-- Modelled from the spec: the operation descriptor of the Swagger document (its type
declaration is not in `hateoas.go`); only its summary is read. -/
structure Operation where
  Summary : String
  deriving DecidableEq

/-- Modelled from the spec: the operation set of one catalog path (type `Path`, not
declared in `hateoas.go`); `Get` is the optional read operation, `none` for Go `nil`. -/
structure PathItem where
  Get : Option Operation
  deriving DecidableEq

/-- Modelled from the spec: the top-level metadata of the Swagger document. -/
structure Info where
  Title : String
  Description : String
  Version : String
  deriving DecidableEq

/-- Modelled from the spec: the loaded Swagger document (type `Swagger`, not declared in
`hateoas.go`).  `Paths` is the Go map from path string to operation set, given as its
entries in the order in which `range` visits them. -/
structure Swagger where
  Info : Info
  Paths : List (String × PathItem)

/-- Modelled from the spec: a navigation link (type `Link`, not declared in
`hateoas.go`): relation name and target. -/
structure Link where
  Rel : String
  HREF : String
  deriving DecidableEq

/-- Modelled from the spec: the root metadata bundle (type `Root`, not declared in
`hateoas.go`). -/
structure Root where
  Title : String
  Description : String
  Version : String
  Links : List Link
  deriving DecidableEq

/-- A Go map has one entry per key. -/
def Swagger.WellFormed (swagger : Swagger) : Prop :=
  (swagger.Paths.map Prod.fst).Nodup

/-- Go map index expression `swagger.Paths[key]`: the entry of the key, the zero value
(no operations) when the key is absent. -/
def Swagger.pathItem (swagger : Swagger) (key : String) : PathItem :=
  (swagger.Paths.lookup key).getD ⟨none⟩

/-- One round of the loop of `MergeSort`: `first[i]` is appended, then `second[i]` when
`second` is long enough. -/
def mergeStep (first second : List String) (final : List String) (i : Nat) : List String :=
  let final := if h : i < first.length then final ++ [first[i]] else final
  if h : i < second.length then final ++ [second[i]] else final

/-- MergeSort takes two string arrays and shuffles them together. -/
def MergeSort (first second : List String) : String :=
  let final := (List.range first.length).foldl (mergeStep first second) []
  stringsJoin final

/-- EchoToSwagger converts paths from Echo syntax to Swagger syntax.  Its pattern is
fixed, small and in the modelled fragment, so that `compile` stands for `MustCompile`. -/
def EchoToSwagger (path : String) : Except ErrorCode String :=
  match compile "\\:(\\w+)" with
  | .error e => .error e
  | .ok echoRegex =>
    let antiParameters := split echoRegex path
    let parameters := findAllString echoRegex path
    let parameters := parameters.map fun p => stringsReplace p ":" "\x7b" 1 ++ "\x7d"
    .ok (MergeSort antiParameters parameters)

/-- GetInfo returns general information about the API (mainly for the root path).  The
second component is the package variable `swagger` after the call. -/
def GetInfo (swagger : Swagger) : Root × Swagger :=
  ({ Title := swagger.Info.Title
     Description := swagger.Info.Description
     Version := swagger.Info.Version
     Links := [] }, swagger)

/-- The pattern that `AddLinks` builds from the translated path. -/
def contextRegex (contextPath : String) : String :=
  if contextPath ≠ "/" then
    let contextPath := stringsReplace contextPath "/" "\\/" (-1)
    let contextPath := stringsReplace contextPath "\x7b" "\\\x7b" (-1)
    let contextPath := stringsReplace contextPath "\x7d" "\\\x7d" (-1)
    "^" ++ contextPath ++ "\\/[a-zA-Z{}]*$"
  else
    "^\\/[a-zA-Z{}]*$"

/-- One round of the loop of `AddLinks` over the catalog paths. -/
def linkStep (swagger : Swagger) (hateoasRegex : Matcher) (parameterRegex : Regexp)
    (parameters : List String) (allLinks : List Link) (swaggerPaths : String) : List Link :=
  if hateoasRegex.MatchString swaggerPaths then
    let antiParameters := split parameterRegex swaggerPaths
    match (swagger.pathItem swaggerPaths).Get with
    | some get => allLinks ++ [{ Rel := get.Summary, HREF := MergeSort antiParameters parameters }]
    | none => allLinks
  else allLinks

/-- AddLinks searches through given paths.  The result is the link list and the Go
error value, which is always `nil` (`none`); `Except.error` is a panic of
`regexp.MustCompile`.  The two fixed patterns (of `EchoToSwagger` and for the
placeholders) are in the modelled fragment and compile; the pattern built from the path
goes through `mustCompile`.  The catalog is only read. -/
def AddLinks (regexp : Library) (swagger : Swagger) (path : String) (parameters : List String) :
    Except ErrorCode (List Link × Option String) :=
  match EchoToSwagger path with
  | .error e => .error e
  | .ok contextPath =>
    match mustCompile regexp (contextRegex contextPath) with
    | .error e => .error e
    | .ok hateoasRegex =>
      match compile "\\\x7b(.*?)\\\x7d" with
      | .error e => .error e
      | .ok parameterRegex =>
        .ok ((swagger.Paths.map Prod.fst).foldl
          (linkStep swagger hateoasRegex parameterRegex parameters) [], none)

/-- RootResponse offers HATEOAS links from the root endpoint of the API.  The result is
the object that is handed to `json.Marshal`, the general information with the links of
the request path, and the package variable `swagger` after the call; the branch for a
non-nil error of `AddLinks` only writes to the response and then goes on.  The HTTP
writer and the serialisation are outside the model. -/
def RootResponse (regexp : Library) (swagger : Swagger) (requestPath : String) :
    Except ErrorCode (Root × Swagger) :=
  let (hateoasObject, swagger) := GetInfo swagger
  match AddLinks regexp swagger requestPath [] with
  | .error e => .error e
  | .ok (links, _) => .ok ({ hateoasObject with Links := links }, swagger)

/-! ## Reference definitions, written from the specification -/

/-- The interleaving that `MergeSort` joins: `a₀, b₀, a₁, b₁, …` as long as `first`
lasts, the rest of `first` once `second` is used up. -/
def weave : List String → List String → List String
  | [], _ => []
  | a :: as, [] => a :: weave as []
  | a :: as, b :: bs => a :: b :: weave as bs

/-- A word character of the parameter-token grammar: letter, digit or underscore. -/
def isWordChar (c : Char) : Bool :=
  inRanges perlWord c

/-- The translation of the specification: each colon followed by one or more word
characters (taken as long as possible) becomes the same identifier in braces; all other
characters are copied.  `skip` counts the identifier characters still to be dropped. -/
def rewriteTokens : Nat → List Char → List Char
  | _, [] => []
  | skip + 1, _ :: t => rewriteTokens skip t
  | 0, c :: t =>
    let ident := t.takeWhile isWordChar
    if c = ':' ∧ ident ≠ [] then '{' :: ident ++ '}' :: rewriteTokens ident.length t
    else c :: rewriteTokens 0 t

/-- Whether the text has a parameter token: a colon immediately followed by a word
character. -/
def hasToken : List Char → Bool
  | [] => false
  | c :: t => (c == ':' && (t.head?.map isWordChar).getD false) || hasToken t

/-- The characters that `AddLinks` leaves unescaped and the pattern syntax gives a
meaning of their own. -/
def isMeta (c : Char) : Bool :=
  c ∈ ['\\', '.', '+', '*', '?', '(', ')', '|', '[', '^', '$']

/-- A character of the final segment: ASCII letter or brace. -/
def isSegmentChar (c : Char) : Bool :=
  inRanges [('a', 'z'), ('A', 'Z'), ('{', '{'), ('}', '}')] c

/-- The catalog paths, in enumeration order. -/
def Swagger.keys (swagger : Swagger) : List String :=
  swagger.Paths.map Prod.fst

/-- The catalog paths that the pattern matches and that have a GET operation, in
enumeration order. -/
def selected (swagger : Swagger) (hateoasRegex : Matcher) : List String :=
  swagger.keys.filter fun c => hateoasRegex.MatchString c && (swagger.pathItem c).Get.isSome

/-- A catalog in which two of the four paths have no GET operation: `/orders`, directly
under the root, and `/users/{id}/posts`. -/
def mixedCatalog : Swagger :=
  { Info := ⟨"T", "D", "1.0"⟩
    Paths := [("/orders", ⟨none⟩), ("/users", ⟨some ⟨"list users"⟩⟩),
      ("/users/{id}", ⟨some ⟨"get user"⟩⟩), ("/users/{id}/posts", ⟨none⟩)] }

/-- A library that refuses every pattern it is asked about.  The examples use it; their
patterns are small and in the modelled fragment, so that it is never asked. -/
def strictLibrary : Library :=
  { rejects := fun _ => some .large
    outside := fun _ => .error .invalidPerlOp }

/-- The four-path catalog of the specification, every path with a GET operation. -/
def demoCatalog : Swagger :=
  { Info := ⟨"T", "D", "1.0"⟩
    Paths := [("/", ⟨some ⟨"root"⟩⟩), ("/users", ⟨some ⟨"list users"⟩⟩),
      ("/users/{id}", ⟨some ⟨"get user"⟩⟩), ("/users/{id}/posts", ⟨some ⟨"list posts"⟩⟩)] }

/-- The text before the slash of a child path: the path itself, nothing for the root. -/
def childBase (P : String) : String :=
  if P = "/" then "" else P

/-- A catalog with a versioned child path. -/
def versionedCatalog : Swagger :=
  { Info := ⟨"T", "D", "1.0"⟩
    Paths := [("/api", ⟨some ⟨"api"⟩⟩), ("/api/v1", ⟨some ⟨"version one"⟩⟩)] }

/-- A catalog with one path that is no child of `/a.b`. -/
def strayCatalog : Swagger :=
  { Info := ⟨"T", "D", "1.0"⟩
    Paths := [("/axb/c", ⟨some ⟨"stray"⟩⟩)] }

/-- A catalog whose only path is the root, with a GET operation. -/
def rootCatalog : Swagger :=
  { Info := ⟨"T", "D", "1.0"⟩
    Paths := [("/", ⟨some ⟨"root"⟩⟩)] }

/-- A catalog with one path two segments below `/a.*`. -/
def deepCatalog : Swagger :=
  { Info := ⟨"T", "D", "1.0"⟩
    Paths := [("/a.*/c/d", ⟨some ⟨"deep"⟩⟩)] }

/-! ## Auxiliary definitions for the proofs -/

/-- The pattern of `EchoToSwagger`, parsed. -/
def echoRegexp : Regexp :=
  .concat (.literal ':')
    (.concat (.capture (.concat (.plus true (.charClass false [⟨false, perlWord⟩])) .emptyMatch))
      .emptyMatch)

/-- The placeholder pattern of `AddLinks`, parsed. -/
def parameterRegexp : Regexp :=
  .concat (.literal '{')
    (.concat (.capture (.concat (.star false .anyCharNotNL) .emptyMatch))
      (.concat (.literal '}') .emptyMatch))

/-- The text left after the parameter token that starts here, if one does. -/
def tokenRest : List Char → Option (List Char)
  | [] => none
  | c :: t => if c = ':' ∧ t.takeWhile isWordChar ≠ [] then some (t.dropWhile isWordChar) else none

/-- The text after the nearest `}` when no newline comes before it. -/
def closeBrace : List Char → Option (List Char)
  | [] => none
  | c :: t => if c = '}' then some t else if c = '\n' then none else closeBrace t

/-- The text left after the placeholder that starts here, if one does. -/
def placeholderRest : List Char → Option (List Char)
  | [] => none
  | c :: t => if c = '{' then closeBrace t else none

/-- The leftmost match as a decomposition of the text into the gap before the match,
the match and the rest, for a function `m` that gives the text left after the preferred
match at the very beginning. -/
def findFirst (m : List Char → Option (List Char)) :
    List Char → Option (List Char × List Char × List Char)
  | [] => (m []).map fun r => ([], [], r)
  | c :: t =>
    match m (c :: t) with
    | some r => some ([], (c :: t).take ((c :: t).length - r.length), r)
    | none => (findFirst m t).map fun p => (c :: p.1, p.2.1, p.2.2)

/-- The pieces between successive matches. -/
def pieces (m : List Char → Option (List Char)) : Nat → List Char → List String
  | 0, t => [String.mk t]
  | fuel + 1, t =>
    match findFirst m t with
    | none => [String.mk t]
    | some p => String.mk p.1 :: pieces m fuel p.2.2

/-- The successive matches. -/
def found (m : List Char → Option (List Char)) : Nat → List Char → List String
  | 0, _ => []
  | fuel + 1, t =>
    match findFirst m t with
    | none => []
    | some p => String.mk p.2.1 :: found m fuel p.2.2

/-- Every match of `m` is a non-empty prefix of the text. -/
def Proper (m : List Char → Option (List Char)) : Prop :=
  ∀ t r, m t = some r → ∃ pre, pre ≠ [] ∧ t = pre ++ r

/-- The escaping that `AddLinks` applies to one character of the path. -/
def escapeChar (c : Char) : List Char :=
  if c = '/' then ['\\', '/'] else if c = '{' then ['\\', '{'] else if c = '}' then ['\\', '}']
  else [c]

/-- The final-segment class `[a-zA-Z{}]` of the pattern of `AddLinks`, parsed. -/
def segmentClass : Regexp :=
  .charClass false [⟨false, [('a', 'z')]⟩, ⟨false, [('A', 'Z')]⟩, ⟨false, [('{', '{')]⟩,
    ⟨false, [('}', '}')]⟩]

/-- The end `\/[a-zA-Z{}]*$` of the pattern of `AddLinks`, parsed. -/
def childTail : Regexp :=
  .concat (.literal '/') (.concat (.star true segmentClass) (.concat .endText .emptyMatch))

/-- The literal characters of the path in sequence, followed by `tail`. -/
def literalChain (tail : Regexp) : List Char → Regexp
  | [] => tail
  | c :: t => .concat (.literal c) (literalChain tail t)

/-- The next character is no repetition operator and no `{`. -/
def SafeHead (l : List Char) : Prop :=
  ∀ d ∈ l.head?, isRepeatOp d = false ∧ d ≠ '{'

/-- Whether `c` is `base`, a slash, and a final segment of letters and braces. -/
def isChild (base c : List Char) : Bool :=
  base.isPrefixOf c &&
    match c.drop base.length with
    | d :: v => d == '/' && v.all isSegmentChar
    | [] => false

/-- The link that one catalog path contributes in the loop of `AddLinks`, if any. -/
def linkFor (swagger : Swagger) (hateoasRegex : Matcher) (parameterRegex : Regexp)
    (parameters : List String) (c : String) : Option Link :=
  if hateoasRegex.MatchString c then
    (swagger.pathItem c).Get.map fun get =>
      { Rel := get.Summary, HREF := MergeSort (split parameterRegex c) parameters }
  else none

/-- The link of a catalog entry under a pattern `^P\/[a-zA-Z{}]*$`. -/
def entryLink (base : List Char) (ps : List String) (kv : String × PathItem) : Option Link :=
  if isChild base kv.1.data then
    kv.2.Get.map fun get =>
      { Rel := get.Summary, HREF := MergeSort (split parameterRegexp kv.1) ps }
  else none

/-! ## Lemmas and theorems -/

theorem stringsJoin_nil : stringsJoin [] = "" := rfl

theorem stringsJoin_cons (a : String) (l : List String) :
    stringsJoin (a :: l) = a ++ stringsJoin l := by
  apply String.ext
  simp [stringsJoin, String.data_append]

theorem stringsJoin_append (l₁ l₂ : List String) :
    stringsJoin (l₁ ++ l₂) = stringsJoin l₁ ++ stringsJoin l₂ := by
  apply String.ext
  simp [stringsJoin, String.data_append]

theorem mergeStep_cons_cons (a b : String) (A B acc : List String) (i : Nat) :
    mergeStep (a :: A) (b :: B) acc (i + 1) = mergeStep A B acc i := by
  simp [mergeStep]

theorem mergeStep_cons_nil (a : String) (A acc : List String) (i : Nat) :
    mergeStep (a :: A) [] acc (i + 1) = mergeStep A [] acc i := by
  simp [mergeStep]

theorem foldl_mergeStep (A : List String) : ∀ (B acc : List String),
    (List.range A.length).foldl (mergeStep A B) acc = acc ++ weave A B := by
  induction A with
  | nil => intro B acc; simp [weave]
  | cons a A ih =>
    intro B acc
    rw [List.length_cons, List.range_succ_eq_map, List.foldl_cons, List.foldl_map]
    cases B with
    | nil =>
      simp only [mergeStep_cons_nil]
      rw [ih]
      simp [mergeStep, weave]
    | cons b B =>
      simp only [mergeStep_cons_cons]
      rw [ih]
      simp [mergeStep, weave]

theorem MergeSort_eq_weave (A B : List String) : MergeSort A B = stringsJoin (weave A B) := by
  simp [MergeSort, foldl_mergeStep]

theorem weave_nil_right (A : List String) : weave A [] = A := by
  induction A with
  | nil => rfl
  | cons a A ih => simp [weave, ih]

theorem weave_of_lt : ∀ (A B : List String), B.length < A.length →
    weave A B = (List.zipWith (fun a b => [a, b]) (A.take B.length) B).flatten ++ A.drop B.length := by
  intro A
  induction A with
  | nil => intro B h; simp at h
  | cons a A ih =>
    intro B h
    cases B with
    | nil => simp [weave_nil_right]
    | cons b B =>
      simp only [List.length_cons, Nat.add_lt_add_iff_right] at h
      simp [weave, ih B h]

theorem compile_echo : compile "\\:(\\w+)" = .ok echoRegexp := by rfl

theorem compile_parameter : compile "\\\x7b(.*?)\\\x7d" = .ok parameterRegexp := by rfl

theorem flatMap_singleton_run {α : Type} (l : List α) : l.flatMap (fun r => [r]) = l := by
  induction l with
  | nil => rfl
  | cons a l ih => simp [List.flatMap_cons]

theorem run_emptyMatch (total : Nat) (s : List Char) : run total .emptyMatch s = [s] := rfl

theorem run_emptyMatch_fun (total : Nat) : run total .emptyMatch = fun s => [s] := rfl

theorem run_literal_nil (total : Nat) (c : Char) : run total (.literal c) [] = [] := rfl

theorem run_literal_cons (total : Nat) (c d : Char) (t : List Char) :
    run total (.literal c) (d :: t) = if d = c then [t] else [] := rfl

theorem run_any_nil (total : Nat) : run total .anyCharNotNL [] = [] := rfl

theorem run_any_cons (total : Nat) (d : Char) (t : List Char) :
    run total .anyCharNotNL (d :: t) = if d = '\n' then [] else [t] := rfl

theorem run_class_nil (total : Nat) (n : Bool) (is : List ClassItem) :
    run total (.charClass n is) [] = [] := rfl

theorem run_class_cons (total : Nat) (n : Bool) (is : List ClassItem) (d : Char) (t : List Char) :
    run total (.charClass n is) (d :: t) =
      if xor n (is.any fun i => i.contains d) then [t] else [] := rfl

theorem run_beginText (total : Nat) (s : List Char) :
    run total .beginText s = if s.length = total then [s] else [] := rfl

theorem run_endText (total : Nat) (s : List Char) :
    run total .endText s = if s = [] then [s] else [] := rfl

theorem run_capture (total : Nat) (r : Regexp) (s : List Char) :
    run total (.capture r) s = run total r s := rfl

theorem run_capture_fun (total : Nat) (r : Regexp) :
    run total (.capture r) = run total r := by
  funext s; rfl

theorem run_star (total : Nat) (g : Bool) (r : Regexp) (s : List Char) :
    run total (.star g r) s = starLoop (run total r) g s.length s := rfl

theorem run_plus (total : Nat) (g : Bool) (r : Regexp) (s : List Char) :
    run total (.plus g r) s = (run total r s).flatMap (starLoop (run total r) g s.length) := rfl

theorem run_concat (total : Nat) (a b : Regexp) (s : List Char) :
    run total (.concat a b) s = (run total a s).flatMap (run total b) := rfl

theorem run_concat_emptyMatch (total : Nat) (a : Regexp) (s : List Char) :
    run total (.concat a .emptyMatch) s = run total a s := by
  rw [run_concat, run_emptyMatch_fun, flatMap_singleton_run]

theorem run_alternate (total : Nat) (a b : Regexp) (s : List Char) :
    run total (.alternate a b) s = run total a s ++ run total b s := rfl

theorem starLoop_zero (step : List Char → List (List Char)) (g : Bool) (s : List Char) :
    starLoop step g 0 s = [s] := rfl

theorem starLoop_succ (step : List Char → List (List Char)) (g : Bool) (fuel : Nat)
    (s : List Char) :
    starLoop step g (fuel + 1) s =
      if g then ((step s).filter fun r => r.length < s.length).flatMap (starLoop step g fuel) ++ [s]
      else s :: ((step s).filter fun r => r.length < s.length).flatMap (starLoop step g fuel) := rfl

theorem word_contains (d : Char) :
    (List.any [(⟨false, perlWord⟩ : ClassItem)] fun i => i.contains d) = isWordChar d := by
  simp [ClassItem.contains, isWordChar]

theorem word_contains_item (d : Char) :
    (⟨false, perlWord⟩ : ClassItem).contains d = isWordChar d := by
  simp [ClassItem.contains, isWordChar]

theorem starLoop_word_head (total : Nat) : ∀ (fuel : Nat) (u : List Char), u.length ≤ fuel →
    (starLoop (run total (.charClass false [⟨false, perlWord⟩])) true fuel u).head? =
      some (u.dropWhile isWordChar) := by
  intro fuel
  induction fuel with
  | zero =>
    intro u h
    have : u = [] := List.length_eq_zero.mp (Nat.le_zero.mp h)
    subst this
    rfl
  | succ fuel ih =>
    intro u h
    cases u with
    | nil => simp [starLoop_succ, run_class_nil]
    | cons d v =>
      simp only [List.length_cons, Nat.add_le_add_iff_right] at h
      rw [starLoop_succ, run_class_cons, word_contains]
      by_cases hd : isWordChar d = true
      · have := ih v h
        cases hl : starLoop (run total (.charClass false [⟨false, perlWord⟩])) true fuel v with
        | nil => rw [hl] at this; simp at this
        | cons x xs =>
          rw [hl] at this
          simp [hd, hl, List.dropWhile_cons] at this ⊢
          exact this
      · simp [hd, List.dropWhile_cons]

theorem run_concat_emptyMatch_fun (total : Nat) (a : Regexp) :
    run total (.concat a .emptyMatch) = run total a := by
  funext s; exact run_concat_emptyMatch total a s

theorem run_echo_head (total : Nat) (s : List Char) :
    (run total echoRegexp s).head? = tokenRest s := by
  have e : ∀ s, run total echoRegexp s = (run total (.literal ':') s).flatMap
      (run total (.plus true (.charClass false [⟨false, perlWord⟩]))) := by
    intro s
    simp only [echoRegexp, run_concat, run_emptyMatch_fun, flatMap_singleton_run]
    congr 1
    funext r
    simp only [run_capture, run_concat, run_emptyMatch_fun, flatMap_singleton_run]
  rw [e]
  cases s with
  | nil => rfl
  | cons c t =>
    rw [run_literal_cons]
    by_cases hc : c = ':'
    · subst hc
      cases t with
      | nil => simp [tokenRest, run_plus, run_class_nil]
      | cons d u =>
        by_cases hd : isWordChar d = true
        · have := starLoop_word_head total (u.length + 1) u (Nat.le_succ _)
          simp [tokenRest, run_plus, run_class_cons, word_contains_item, hd, List.takeWhile_cons,
            List.dropWhile_cons, this]
        · simp [tokenRest, run_plus, run_class_cons, word_contains_item, hd, List.takeWhile_cons]
    · simp [tokenRest, hc]

theorem starLoop_lazy_any_head (total : Nat) : ∀ (fuel : Nat) (u : List Char), u.length ≤ fuel →
    ((starLoop (run total .anyCharNotNL) false fuel u).flatMap
        (run total (.literal '}'))).head? = closeBrace u := by
  intro fuel
  induction fuel with
  | zero =>
    intro u h
    have : u = [] := List.length_eq_zero.mp (Nat.le_zero.mp h)
    subst this
    rfl
  | succ fuel ih =>
    intro u h
    cases u with
    | nil => simp [starLoop_succ, run_any_nil, run_literal_nil, closeBrace]
    | cons d v =>
      simp only [List.length_cons, Nat.add_le_add_iff_right] at h
      have := ih v h
      rw [starLoop_succ, run_any_cons]
      by_cases h1 : d = '}'
      · subst h1
        simp [run_literal_cons, closeBrace]
      · by_cases h2 : d = '\n'
        · subst h2
          simp [run_literal_cons, closeBrace]
        · simp [run_literal_cons, closeBrace, h1, h2, this]

theorem run_parameter_head (total : Nat) (s : List Char) :
    (run total parameterRegexp s).head? = placeholderRest s := by
  have e : ∀ s, run total parameterRegexp s = (run total (.literal '{') s).flatMap
      fun r => (run total (.star false .anyCharNotNL) r).flatMap (run total (.literal '}')) := by
    intro s
    simp only [parameterRegexp, run_concat, run_emptyMatch_fun, flatMap_singleton_run]
    congr 1
    funext r
    simp only [run_capture, run_concat, run_emptyMatch_fun, flatMap_singleton_run]
    congr 1
    funext r
    simp only [run_concat, run_emptyMatch_fun, flatMap_singleton_run]
  rw [e]
  cases s with
  | nil => rfl
  | cons c t =>
    rw [run_literal_cons]
    by_cases hc : c = '{'
    · subst hc
      have := starLoop_lazy_any_head total t.length t (Nat.le_refl _)
      simpa [placeholderRest, run_concat, run_star] using this
    · simp [placeholderRest, hc]

theorem findFirst_spec (m : List Char → Option (List Char)) (hm : Proper m) :
    ∀ (t g mt r : List Char), findFirst m t = some (g, mt, r) →
      t = g ++ (mt ++ r) ∧ mt ≠ [] := by
  intro t
  induction t with
  | nil =>
    intro g mt r h
    cases hr : m [] with
    | none => simp [findFirst, hr] at h
    | some r' =>
      obtain ⟨pre, hpre, e⟩ := hm _ _ hr
      cases pre with
      | nil => exact absurd rfl hpre
      | cons a b => simp at e
  | cons c t ih =>
    intro g mt r h
    cases hr : m (c :: t) with
    | some r' =>
      obtain ⟨pre, hpre, e⟩ := hm _ _ hr
      simp only [findFirst, hr, Option.some.injEq, Prod.mk.injEq] at h
      obtain ⟨rfl, hmt, rfl⟩ := h
      rw [e] at hmt
      simp at hmt
      subst hmt
      exact ⟨by simpa using e, hpre⟩
    | none =>
      simp only [findFirst, hr, Option.map_eq_some'] at h
      obtain ⟨⟨g', mt', r'⟩, hf, he⟩ := h
      simp only [Prod.mk.injEq] at he
      obtain ⟨rfl, rfl, rfl⟩ := he
      obtain ⟨e, hne⟩ := ih _ _ _ hf
      exact ⟨by rw [e]; rfl, hne⟩

theorem search_eq (re : Regexp) (m : List Char → Option (List Char))
    (h1 : ∀ total t, (run total re t).head? = m t) (total : Nat) :
    ∀ (t : List Char) (pos : Nat),
      search re total pos t =
        (findFirst m t).map fun p => (pos + p.1.length, total - p.2.2.length) := by
  intro t
  induction t with
  | nil =>
    intro pos
    simp [search, findFirst, h1, Option.map_map, Function.comp_def]
  | cons c t ih =>
    intro pos
    rw [search, h1, findFirst]
    cases hr : m (c :: t) with
    | some r => simp
    | none =>
      simp only [ih, Option.map_map]
      congr 1
      funext p
      simp [Nat.add_assoc, Nat.add_comm 1]

theorem splitLoop_allMatches (re : Regexp) (m : List Char → Option (List Char))
    (h1 : ∀ total t, (run total re t).head? = m t) (hm : Proper m) (s : List Char) :
    ∀ (fuel pos : Nat) (prev : Option Nat) (last : Nat), pos ≤ s.length → last < s.length →
      splitLoop s (allMatches re s fuel pos prev) pos last = pieces m fuel (s.drop pos) := by
  intro fuel
  induction fuel with
  | zero =>
    intro pos prev last _ hl
    simp [allMatches, splitLoop, pieces, Nat.ne_of_lt hl]
  | succ fuel ih =>
    intro pos prev last hp hl
    rw [allMatches, if_neg (Nat.not_lt.mpr hp), search_eq re m h1]
    cases hf : findFirst m (s.drop pos) with
    | none => simp [splitLoop, pieces, hf, Nat.ne_of_lt hl]
    | some p =>
      obtain ⟨g, mt, r⟩ := p
      obtain ⟨e, hne⟩ := findFirst_spec m hm _ _ _ _ hf
      have hlen : s.length = pos + (g.length + (mt.length + r.length)) := by
        have := congrArg List.length e
        simp only [List.length_drop, List.length_append] at this
        omega
      have hmt : 0 < mt.length := List.length_pos.mpr hne
      have he : s.length - r.length = pos + g.length + mt.length := by omega
      simp only [Option.map_some', pieces, hf]
      rw [he, if_neg (by omega)]
      have h2 : pos + g.length + mt.length ≠ 0 := by omega
      rw [splitLoop]
      dsimp only
      rw [if_pos h2]
      have hd : s.drop (pos + g.length + mt.length) = r := by
        rw [Nat.add_assoc, ← List.drop_drop, e, ← List.append_assoc, List.drop_left']
        simp
      rw [ih _ _ _ (by omega) (by omega), hd]
      congr 2
      simp [slice, e]

theorem findAll_allMatches (re : Regexp) (m : List Char → Option (List Char))
    (h1 : ∀ total t, (run total re t).head? = m t) (hm : Proper m) (s : List Char) :
    ∀ (fuel pos : Nat) (prev : Option Nat), pos ≤ s.length →
      (allMatches re s fuel pos prev).map (fun x => String.mk (slice s x.1 x.2)) =
        found m fuel (s.drop pos) := by
  intro fuel
  induction fuel with
  | zero => intro pos prev _; simp [allMatches, found]
  | succ fuel ih =>
    intro pos prev hp
    rw [allMatches, if_neg (Nat.not_lt.mpr hp), search_eq re m h1]
    cases hf : findFirst m (s.drop pos) with
    | none => simp [found, hf]
    | some p =>
      obtain ⟨g, mt, r⟩ := p
      obtain ⟨e, hne⟩ := findFirst_spec m hm _ _ _ _ hf
      have hlen : s.length = pos + (g.length + (mt.length + r.length)) := by
        have := congrArg List.length e
        simp only [List.length_drop, List.length_append] at this
        omega
      have hmt : 0 < mt.length := List.length_pos.mpr hne
      have he : s.length - r.length = pos + g.length + mt.length := by omega
      simp only [Option.map_some', found, hf]
      rw [he, if_neg (by omega)]
      have hd : s.drop (pos + g.length + mt.length) = r := by
        rw [Nat.add_assoc, ← List.drop_drop, e, ← List.append_assoc, List.drop_left']
        simp
      rw [List.map_cons, ih _ _ (by omega), hd]
      congr 2
      simp only [slice]
      rw [← List.drop_drop, e, List.drop_left']
      · simp
      · rfl

theorem split_eq_pieces (re : Regexp) (m : List Char → Option (List Char))
    (h1 : ∀ total t, (run total re t).head? = m t) (hm : Proper m) (s : String) :
    split re s = pieces m (s.data.length + 2) s.data := by
  unfold split
  by_cases h : s.data.length = 0
  · have : s.data = [] := List.length_eq_zero.mp h
    have hn : m [] = none := by
      cases hr : m [] with
      | none => rfl
      | some r =>
        obtain ⟨pre, hpre, e⟩ := hm _ _ hr
        cases pre with
        | nil => exact absurd rfl hpre
        | cons a b => simp at e
    simp [this, pieces, findFirst, hn]
  · rw [if_neg h, findAllStringIndex,
      splitLoop_allMatches re m h1 hm s.data _ 0 none 0 (Nat.zero_le _) (Nat.pos_of_ne_zero h)]
    rfl

theorem findAllString_eq_found (re : Regexp) (m : List Char → Option (List Char))
    (h1 : ∀ total t, (run total re t).head? = m t) (hm : Proper m) (s : String) :
    findAllString re s = found m (s.data.length + 2) s.data := by
  unfold findAllString findAllStringIndex
  rw [findAll_allMatches re m h1 hm s.data _ 0 none (Nat.zero_le _)]
  rfl

theorem proper_tokenRest : Proper tokenRest := by
  intro t r h
  cases t with
  | nil => simp [tokenRest] at h
  | cons c t =>
    simp only [tokenRest] at h
    split at h
    · rename_i hc
      simp only [Option.some.injEq] at h
      subst h
      exact ⟨c :: t.takeWhile isWordChar, by simp, by simp⟩
    · simp at h

theorem closeBrace_spec : ∀ (t r : List Char), closeBrace t = some r →
    ∃ pre, t = pre ++ '}' :: r ∧ '}' ∉ pre ∧ '\n' ∉ pre := by
  intro t
  induction t with
  | nil => intro r h; simp [closeBrace] at h
  | cons c t ih =>
    intro r h
    simp only [closeBrace] at h
    split at h
    · rename_i hc
      simp only [Option.some.injEq] at h
      subst h; subst hc
      exact ⟨[], rfl, by simp, by simp⟩
    · rename_i hc
      split at h
      · simp at h
      · rename_i hn
        obtain ⟨pre, e, h1, h2⟩ := ih r h
        refine ⟨c :: pre, by rw [e]; rfl, ?_, ?_⟩
        · simp only [List.mem_cons, not_or]; exact ⟨fun x => hc x.symm, h1⟩
        · simp only [List.mem_cons, not_or]; exact ⟨fun x => hn x.symm, h2⟩

theorem proper_placeholderRest : Proper placeholderRest := by
  intro t r h
  cases t with
  | nil => simp [placeholderRest] at h
  | cons c t =>
    simp only [placeholderRest] at h
    split at h
    · obtain ⟨pre, e, _, _⟩ := closeBrace_spec t r h
      exact ⟨c :: (pre ++ ['}']), by simp, by simp [e]⟩
    · simp at h

theorem drop_length_takeWhile (p : Char → Bool) (t : List Char) :
    t.drop (t.takeWhile p).length = t.dropWhile p := by
  have := @List.drop_left' _ (t.takeWhile p) (t.dropWhile p) _ rfl
  rwa [List.takeWhile_append_dropWhile] at this

theorem rewriteTokens_skip : ∀ (t : List Char) (k : Nat),
    rewriteTokens k t = rewriteTokens 0 (t.drop k) := by
  intro t
  induction t with
  | nil => intro k; cases k <;> simp [rewriteTokens]
  | cons c t ih =>
    intro k
    cases k with
    | zero => rfl
    | succ k => simp only [rewriteTokens, List.drop_succ_cons]; exact ih k

theorem rewriteTokens_cons (c : Char) (t : List Char) :
    rewriteTokens 0 (c :: t) =
      match tokenRest (c :: t) with
      | some r => '{' :: t.takeWhile isWordChar ++ '}' :: rewriteTokens 0 r
      | none => c :: rewriteTokens 0 t := by
  simp only [rewriteTokens, tokenRest]
  split
  · rename_i h
    simp only [rewriteTokens_skip t (List.length _)]
    rw [drop_length_takeWhile]
  · rfl

theorem rewriteTokens_no_token : ∀ (t : List Char), findFirst tokenRest t = none →
    rewriteTokens 0 t = t := by
  intro t
  induction t with
  | nil => intro _; rfl
  | cons c t ih =>
    intro h
    rw [findFirst] at h
    cases hr : tokenRest (c :: t) with
    | some r => rw [hr] at h; simp at h
    | none =>
      rw [hr] at h
      simp only [Option.map_eq_none'] at h
      rw [rewriteTokens_cons, hr, ih h]

theorem rewriteTokens_token : ∀ (t g mt r : List Char), findFirst tokenRest t = some (g, mt, r) →
    rewriteTokens 0 t = g ++ ('{' :: mt.tail ++ '}' :: rewriteTokens 0 r) ∧ mt.head? = some ':' := by
  intro t
  induction t with
  | nil => intro g mt r h; simp [findFirst, tokenRest] at h
  | cons c t ih =>
    intro g mt r h
    rw [findFirst] at h
    cases hr : tokenRest (c :: t) with
    | some r' =>
      rw [hr] at h
      simp only [Option.some.injEq, Prod.mk.injEq] at h
      obtain ⟨rfl, hmt, rfl⟩ := h
      rw [rewriteTokens_cons, hr]
      simp only [tokenRest] at hr
      split at hr
      · rename_i hc
        simp only [Option.some.injEq] at hr
        obtain ⟨rfl, _⟩ := hc
        have e : (':' :: t).take ((':' :: t).length - r'.length) = ':' :: t.takeWhile isWordChar := by
          subst hr
          have h1 := List.takeWhile_append_dropWhile isWordChar t
          have h2 := congrArg List.length h1
          simp only [List.length_append] at h2
          have h3 : (':' :: t).length - (List.dropWhile isWordChar t).length =
              (':' :: t.takeWhile isWordChar).length := by
            simp only [List.length_cons]; omega
          rw [h3]
          have h4 : ':' :: t = (':' :: t.takeWhile isWordChar) ++ t.dropWhile isWordChar := by
            rw [List.cons_append, h1]
          conv_lhs => rw [h4]
          rw [List.take_left']
          rfl
        rw [e] at hmt
        subst hmt
        simp
      · simp at hr
    | none =>
      rw [hr] at h
      simp only [Option.map_eq_some'] at h
      obtain ⟨⟨g', mt', r'⟩, hf, he⟩ := h
      simp only [Prod.mk.injEq] at he
      obtain ⟨rfl, rfl, rfl⟩ := he
      obtain ⟨e, hh⟩ := ih _ _ _ hf
      rw [rewriteTokens_cons, hr, e]
      exact ⟨rfl, hh⟩

theorem replaceLoop_no_budget (old new : List Char) : ∀ (t : List Char),
    replaceLoop old new (some 0) 0 t = t := by
  intro t
  induction t with
  | nil => rfl
  | cons c t ih => simp [replaceLoop, ih]

theorem replace_colon (mt : List Char) (h : mt.head? = some ':') :
    stringsReplace (String.mk mt) ":" "\x7b" 1 ++ "\x7d" = String.mk ('{' :: mt.tail ++ ['}']) := by
  cases mt with
  | nil => simp at h
  | cons c t =>
    simp only [List.head?_cons, Option.some.injEq] at h
    subst h
    apply String.ext
    simp [stringsReplace, replaceLoop, replaceLoop_no_budget, String.data_append]

theorem weave_tokens : ∀ (fuel : Nat) (t : List Char), t.length < fuel →
    stringsJoin (weave (pieces tokenRest fuel t)
      ((found tokenRest fuel t).map fun p => stringsReplace p ":" "\x7b" 1 ++ "\x7d")) =
      String.mk (rewriteTokens 0 t) := by
  intro fuel
  induction fuel with
  | zero => intro t h; omega
  | succ fuel ih =>
    intro t h
    cases hf : findFirst tokenRest t with
    | none =>
      simp only [pieces, found, hf, List.map_nil, weave, stringsJoin_cons, stringsJoin_nil]
      rw [rewriteTokens_no_token t hf]
      apply String.ext
      simp [String.data_append]
    | some p =>
      obtain ⟨g, mt, r⟩ := p
      obtain ⟨e, hne⟩ := findFirst_spec tokenRest proper_tokenRest _ _ _ _ hf
      obtain ⟨e2, hh⟩ := rewriteTokens_token _ _ _ _ hf
      have hlen : r.length < fuel := by
        have := congrArg List.length e
        have := List.length_pos.mpr hne
        simp only [List.length_append] at *
        omega
      simp only [pieces, found, hf, List.map_cons, weave, stringsJoin_cons]
      rw [ih r hlen, replace_colon mt hh, e2]
      apply String.ext
      simp [String.data_append]

theorem EchoToSwagger_eq (path : String) :
    EchoToSwagger path = .ok (String.mk (rewriteTokens 0 path.data)) := by
  simp only [EchoToSwagger, compile_echo]
  rw [split_eq_pieces echoRegexp tokenRest (fun total t => run_echo_head total t) proper_tokenRest,
    findAllString_eq_found echoRegexp tokenRest (fun total t => run_echo_head total t)
      proper_tokenRest,
    MergeSort_eq_weave, weave_tokens _ _ (by omega)]

theorem parse_childTail (f : Nat) :
    parse (f + 4) .seq "\\/[a-zA-Z{}]*$".data = .ok (childTail, []) := by
  rfl

theorem parseRepeat_safe (atom : Regexp) (rest : List Char) (h : SafeHead rest) :
    parseRepeat atom rest = .ok (atom, rest) := by
  cases rest with
  | nil => rfl
  | cons d t =>
    obtain ⟨h1, h2⟩ := h d (by simp)
    simp [parseRepeat, h1, h2]

theorem isMeta_false {c : Char} (h : isMeta c = false) :
    c ≠ '\\' ∧ c ≠ '.' ∧ c ≠ '+' ∧ c ≠ '*' ∧ c ≠ '?' ∧ c ≠ '(' ∧ c ≠ ')' ∧ c ≠ '|' ∧ c ≠ '[' ∧
      c ≠ '^' ∧ c ≠ '$' := by
  simpa [isMeta] using h

theorem parse_piece_plain (f : Nat) (c : Char) (rest : List Char) (hm : isMeta c = false)
    (hb : c ≠ '{') (hs : SafeHead rest) :
    parse (f + 1) .piece (c :: rest) = .ok (.literal c, rest) := by
  obtain ⟨h1, h2, h3, h4, h5, h6, h7, h8, h9, h10, h11⟩ := isMeta_false hm
  simp [parse, isRepeatOp, h1, h2, h3, h4, h5, h6, h7, h8, h9, h10, h11, hb,
    parseRepeat_safe _ _ hs]

theorem parse_piece_escaped (f : Nat) (c : Char) (rest : List Char)
    (hc : c = '/' ∨ c = '{' ∨ c = '}') (hs : SafeHead rest) :
    parse (f + 1) .piece ('\\' :: c :: rest) = .ok (.literal c, rest) := by
  rcases hc with rfl | rfl | rfl <;>
    simp [parse, isRepeatOp, parseBackslash, perlClass, parseEscape, isalnum, inRanges,
      parseRepeat_safe _ _ hs]

theorem safeHead_chain (P : List Char) (hP : ∀ c ∈ P, isMeta c = false) :
    SafeHead (P.flatMap escapeChar ++ "\\/[a-zA-Z{}]*$".data) := by
  cases P with
  | nil => intro d hd; simp at hd; subst hd; decide
  | cons c P =>
    obtain ⟨h1, h2, h3, h4, h5, h6, h7, h8, h9, h10, h11⟩ := isMeta_false (hP c (by simp))
    intro d hd
    simp only [List.flatMap_cons, escapeChar] at hd
    split at hd
    · simp at hd; subst hd; decide
    · split at hd
      · simp at hd; subst hd; decide
      · split at hd
        · simp at hd; subst hd; decide
        · rename_i hb _
          simp at hd; subst hd
          simp [isRepeatOp, h3, h4, h5, hb]

theorem parse_seq_chain : ∀ (P : List Char) (f : Nat), (∀ c ∈ P, isMeta c = false) →
    P.length ≤ f →
    parse (f + 4) .seq (P.flatMap escapeChar ++ "\\/[a-zA-Z{}]*$".data) =
      .ok (literalChain childTail P, []) := by
  intro P
  induction P with
  | nil => intro f _ _; exact parse_childTail f
  | cons c P ih =>
    intro f hP hf
    obtain ⟨f, rfl⟩ : ∃ g, f = g + 1 := ⟨f - 1, by simp at hf; omega⟩
    have hP' : ∀ c ∈ P, isMeta c = false := fun d hd => hP d (List.mem_cons_of_mem _ hd)
    have hs := safeHead_chain P hP'
    have ih' := ih f hP' (by simpa using hf)
    obtain ⟨h1, h2, h3, h4, h5, h6, h7, h8, h9, h10, h11⟩ := isMeta_false (hP c (by simp))
    by_cases hc : c = '/' ∨ c = '{' ∨ c = '}'
    · have e : (c :: P).flatMap escapeChar = '\\' :: c :: P.flatMap escapeChar := by
        rcases hc with rfl | rfl | rfl <;> simp [escapeChar]
      rw [e]
      have hp := parse_piece_escaped (f + 3) c _ hc hs
      simp only [List.cons_append] at hp ⊢
      rw [parse]
      simp [hp, ih', literalChain]
    · simp only [not_or] at hc
      have e : (c :: P).flatMap escapeChar = c :: P.flatMap escapeChar := by
        simp [escapeChar, hc.1, hc.2.1, hc.2.2]
      rw [e]
      have hp := parse_piece_plain (f + 3) c _ (hP c (by simp)) hc.2.1 hs
      simp only [List.cons_append] at hp ⊢
      rw [parse]
      simp [hp, ih', literalChain, h7, h8]

theorem replaceLoop_single (a : Char) (new : List Char) : ∀ (t : List Char),
    replaceLoop [a] new none 0 t = t.flatMap fun c => if c = a then new else [c] := by
  intro t
  induction t with
  | nil => rfl
  | cons c t ih =>
    by_cases h : c = a
    · subst h
      simp [replaceLoop, List.isPrefixOf, ih]
    · have h' : ¬ a = c := fun x => h x.symm
      simp [replaceLoop, List.isPrefixOf, ih, h, h']

theorem stringsReplace_single (s : String) (a : Char) (new : String) :
    (stringsReplace s (String.mk [a]) new (-1)).data =
      s.data.flatMap fun c => if c = a then new.data else [c] := by
  simp [stringsReplace, replaceLoop_single]

theorem contextRegex_data (P : String) (h : P ≠ "/") :
    (contextRegex P).data = '^' :: (P.data.flatMap escapeChar ++ "\\/[a-zA-Z{}]*$".data) := by
  have e1 : ("/" : String) = String.mk ['/'] := rfl
  have e2 : ("\x7b" : String) = String.mk ['{'] := rfl
  have e3 : ("\x7d" : String) = String.mk ['}'] := rfl
  simp only [contextRegex, h, ne_eq, not_false_eq_true, if_true, String.data_append]
  rw [e1, e2, e3, stringsReplace_single, stringsReplace_single, stringsReplace_single]
  simp only [List.flatMap_assoc]
  show ['^'] ++ _ ++ _ = _
  simp only [List.singleton_append, List.cons_append, List.cons.injEq, true_and]
  congr 1
  apply List.flatMap_congr
  intro c _
  by_cases h1 : c = '/'
  · subst h1; decide
  · by_cases h2 : c = '{'
    · subst h2; decide
    · by_cases h3 : c = '}'
      · subst h3; decide
      · simp [escapeChar, h1, h2, h3]

theorem compile_contextRegex (P : String) (h : P ≠ "/") (hP : ∀ c ∈ P.data, isMeta c = false) :
    compile (contextRegex P) = .ok (.concat .beginText (literalChain childTail P.data)) := by
  have hs := safeHead_chain P.data hP
  have hlen : P.data.length ≤ (P.data.flatMap escapeChar).length := by
    clear hs hP h
    induction P.data with
    | nil => simp
    | cons c t ih =>
      have : 1 ≤ (escapeChar c).length := by
        unfold escapeChar; split <;> [simp; (split <;> [simp; (split <;> simp)])]
      simp only [List.flatMap_cons, List.length_append, List.length_cons]
      omega
  unfold compile
  rw [contextRegex_data P h]
  obtain ⟨f, hf, hge⟩ : ∃ f, 3 * ('^' :: (P.data.flatMap escapeChar ++
      "\\/[a-zA-Z{}]*$".data)).length + 3 = f + 4 + 1 + 1 ∧ P.data.length ≤ f := by
    refine ⟨3 * ('^' :: (P.data.flatMap escapeChar ++ "\\/[a-zA-Z{}]*$".data)).length + 3 - 6, ?_, ?_⟩
    · simp only [List.length_cons, List.length_append]; omega
    · simp only [List.length_cons, List.length_append]; omega
  rw [hf]
  have hseq := parse_seq_chain P.data f hP hge
  have hpiece : parse (f + 4) .piece ('^' :: (P.data.flatMap escapeChar ++
      "\\/[a-zA-Z{}]*$".data)) = .ok (.beginText, P.data.flatMap escapeChar ++
      "\\/[a-zA-Z{}]*$".data) := by
    simp [parse, isRepeatOp, parseRepeat_safe _ _ hs]
  have hseq2 : parse (f + 4 + 1) .seq ('^' :: (P.data.flatMap escapeChar ++
      "\\/[a-zA-Z{}]*$".data)) = .ok (.concat .beginText (literalChain childTail P.data), []) := by
    rw [parse]
    simp [hpiece, hseq]
  rw [parse]
  simp [hseq2]

theorem compile_rootRegex :
    compile (contextRegex "/") = .ok (.concat .beginText childTail) := by
  rfl

theorem run_literalChain (total : Nat) (tail : Regexp) : ∀ (P s : List Char),
    run total (literalChain tail P) s =
      if P.isPrefixOf s then run total tail (s.drop P.length) else [] := by
  intro P
  induction P with
  | nil => intro s; simp [literalChain]
  | cons c P ih =>
    intro s
    cases s with
    | nil => simp [literalChain, run_concat, run_literal_nil]
    | cons d t =>
      rw [literalChain, run_concat, run_literal_cons]
      by_cases h : d = c
      · subst h; simp [ih]
      · have h' : ¬ c = d := fun x => h x.symm
        simp [h, h']

theorem segment_contains (d : Char) :
    (List.any [(⟨false, [('a', 'z')]⟩ : ClassItem), ⟨false, [('A', 'Z')]⟩, ⟨false, [('{', '{')]⟩,
      ⟨false, [('}', '}')]⟩] fun i => i.contains d) = isSegmentChar d := by
  simp [ClassItem.contains, isSegmentChar, inRanges, Bool.or_assoc]

theorem starLoop_segment_nil (total : Nat) : ∀ (fuel : Nat) (v : List Char), v.length ≤ fuel →
    ([] ∈ starLoop (run total segmentClass) true fuel v ↔ v.all isSegmentChar = true) := by
  intro fuel
  induction fuel with
  | zero =>
    intro v h
    have : v = [] := List.length_eq_zero.mp (Nat.le_zero.mp h)
    subst this
    simp [starLoop_zero]
  | succ fuel ih =>
    intro v h
    cases v with
    | nil => simp [starLoop_succ]
    | cons d w =>
      simp only [List.length_cons, Nat.add_le_add_iff_right] at h
      rw [starLoop_succ, segmentClass, run_class_cons, segment_contains]
      by_cases hd : isSegmentChar d = true
      · have := ih w h
        simp [hd, ← this, segmentClass]
      · simp [hd]

theorem run_childTail (total : Nat) (u : List Char) :
    (run total childTail u).head?.isSome =
      match u with
      | d :: v => d == '/' && v.all isSegmentChar
      | [] => false := by
  cases u with
  | nil => rfl
  | cons d v =>
    rw [childTail, run_concat, run_literal_cons]
    by_cases hd : d = '/'
    · subst hd
      have key := starLoop_segment_nil total v.length v (Nat.le_refl _)
      have e : ∀ r, run total (.concat .endText .emptyMatch) r = if r = [] then [r] else [] := by
        intro r
        rw [run_concat_emptyMatch, run_endText]
      simp only [if_true, List.flatMap_cons, List.flatMap_nil, List.append_nil, run_concat, run_star,
        beq_self_eq_true, Bool.true_and]
      have e' : run total (.concat .endText .emptyMatch) = fun r => if r = [] then [r] else [] := by
        funext r; exact e r
      rw [e']
      by_cases hall : v.all isSegmentChar = true
      · have hm := key.mpr hall
        rw [hall]
        cases hl : (starLoop (run total segmentClass) true v.length v).flatMap
            (fun r => if r = [] then [r] else []) with
        | nil =>
          have : [] ∈ (starLoop (run total segmentClass) true v.length v).flatMap
              (fun r => if r = [] then [r] else []) := by
            rw [List.mem_flatMap]
            exact ⟨[], hm, by simp⟩
          rw [hl] at this
          simp at this
        | cons x xs => rfl
      · have hm : [] ∉ starLoop (run total segmentClass) true v.length v := fun x => hall (key.mp x)
        have : (starLoop (run total segmentClass) true v.length v).flatMap
            (fun r => if r = [] then [r] else []) = [] := by
          rw [List.flatMap_eq_nil_iff]
          intro r hr
          by_cases h0 : r = []
          · subst h0; exact absurd hr hm
          · simp [h0]
        rw [this]
        simp only [Bool.not_eq_true] at hall
        rw [hall]
        rfl
    · simp [hd]

theorem search_anchored (total : Nat) (X : Regexp) : ∀ (t : List Char) (pos : Nat),
    t.length < total → search (.concat .beginText X) total pos t = none := by
  intro t
  induction t with
  | nil =>
    intro pos h
    have : ¬ (0 = total) := by simp at h; omega
    simp [search, run_concat, run_beginText, this]
  | cons c t ih =>
    intro pos h
    have h1 : ¬ ((c :: t).length = total) := by omega
    have h2 : t.length < total := by simp at h; omega
    rw [search, run_concat, run_beginText, if_neg h1]
    simp [ih _ h2]

theorem matchString_anchored (X : Regexp) (s : String) :
    matchString (.concat .beginText X) s = (run s.data.length X s.data).head?.isSome := by
  unfold matchString
  cases hs : s.data with
  | nil => simp [search, run_concat, run_beginText]
  | cons c t =>
    rw [search, run_concat, run_beginText, if_pos rfl]
    simp only [List.flatMap_cons, List.flatMap_nil, List.append_nil]
    cases hr : (run (c :: t).length X (c :: t)).head? with
    | some r => rfl
    | none =>
      have := search_anchored (t.length + 1) X t 1 (Nat.lt_succ_self _)
      simpa using this

theorem matchString_chain (P : List Char) (c : String) :
    matchString (.concat .beginText (literalChain childTail P)) c = isChild P c.data := by
  rw [matchString_anchored, run_literalChain, isChild]
  by_cases h : P.isPrefixOf c.data = true
  · rw [if_pos h, h, run_childTail]
    simp
  · rw [if_neg h]
    simp only [Bool.not_eq_true] at h
    rw [h]
    rfl

theorem matchString_root (c : String) :
    matchString (.concat .beginText childTail) c = isChild [] c.data :=
  matchString_chain [] c

theorem mustCompile_small (lib : Library) (pattern : String) (re : Regexp)
    (hs : isSmall pattern = true) (hc : compile pattern = .ok re) :
    mustCompile lib pattern = .ok ⟨matchString re⟩ := by
  unfold mustCompile
  rw [if_pos hs, hc]

theorem mustCompile_cases (lib : Library) (pattern : String) (re : Regexp)
    (hc : compile pattern = .ok re) :
    (∃ e, isSmall pattern = false ∧ lib.rejects pattern = some e ∧
        mustCompile lib pattern = .error e) ∨
      mustCompile lib pattern = .ok ⟨matchString re⟩ := by
  unfold mustCompile
  cases hs : isSmall pattern with
  | true => right; simp [hc]
  | false =>
    cases hr : lib.rejects pattern with
    | none => right; simp [hc]
    | some e => left; exact ⟨e, rfl, rfl, by simp⟩

theorem foldl_linkStep (sw : Swagger) (m : Matcher) (pre : Regexp) (ps : List String) :
    ∀ (keys : List String) (acc : List Link),
      keys.foldl (linkStep sw m pre ps) acc = acc ++ keys.filterMap (linkFor sw m pre ps) := by
  intro keys
  induction keys with
  | nil => intro acc; simp
  | cons c keys ih =>
    intro acc
    rw [List.foldl_cons, ih]
    unfold linkStep linkFor
    by_cases hm : m.MatchString c = true
    · cases hg : (sw.pathItem c).Get with
      | none => simp [hm, hg]
      | some op => simp [hm, hg]
    · simp [hm]

theorem AddLinks_eq (lib : Library) (sw : Swagger) (path : String) (ps : List String) :
    AddLinks lib sw path ps =
      match mustCompile lib (contextRegex (String.mk (rewriteTokens 0 path.data))) with
      | .error e => .error e
      | .ok m => .ok (sw.keys.filterMap (linkFor sw m parameterRegexp ps), none) := by
  unfold AddLinks
  rw [EchoToSwagger_eq]
  simp only [compile_parameter]
  cases mustCompile lib (contextRegex (String.mk (rewriteTokens 0 path.data))) with
  | error e => rfl
  | ok m => simp [foldl_linkStep, Swagger.keys]

theorem AddLinks_cases (lib : Library) (sw : Swagger) (path : String) (ps : List String) :
    ∃ P, EchoToSwagger path = .ok P ∧
      ((∃ e, mustCompile lib (contextRegex P) = .error e ∧ AddLinks lib sw path ps = .error e) ∨
        (∃ m, mustCompile lib (contextRegex P) = .ok m ∧
          AddLinks lib sw path ps =
            .ok (sw.keys.filterMap (linkFor sw m parameterRegexp ps), none))) := by
  refine ⟨String.mk (rewriteTokens 0 path.data), EchoToSwagger_eq path, ?_⟩
  rw [AddLinks_eq]
  cases hc : mustCompile lib (contextRegex (String.mk (rewriteTokens 0 path.data))) with
  | error e => exact Or.inl ⟨e, rfl, rfl⟩
  | ok m => exact Or.inr ⟨m, rfl, rfl⟩

theorem forall₂_filter_filterMap {α β : Type} (f : α → Option β) (R : α → β → Prop)
    (h : ∀ a b, f a = some b → R a b) :
    ∀ l : List α, List.Forall₂ R (l.filter fun a => (f a).isSome) (l.filterMap f) := by
  intro l
  induction l with
  | nil => exact List.Forall₂.nil
  | cons a l ih =>
    cases hf : f a with
    | none => simpa [List.filter_cons, List.filterMap_cons, hf] using ih
    | some b =>
      simp only [List.filter_cons, List.filterMap_cons, hf, Option.isSome_some, if_true]
      exact List.Forall₂.cons (h a b hf) ih

theorem linkFor_isSome (sw : Swagger) (m : Matcher) (pre : Regexp) (ps : List String)
    (c : String) :
    (linkFor sw m pre ps c).isSome = (m.MatchString c && (sw.pathItem c).Get.isSome) := by
  unfold linkFor
  by_cases hm : m.MatchString c = true
  · cases hg : (sw.pathItem c).Get <;> simp [hm]
  · simp [hm]

theorem selected_eq (sw : Swagger) (m : Matcher) (pre : Regexp) (ps : List String) :
    selected sw m = sw.keys.filter fun c => (linkFor sw m pre ps c).isSome := by
  unfold selected
  congr 1
  funext c
  rw [linkFor_isSome]

theorem linkFor_some (sw : Swagger) (m : Matcher) (pre : Regexp) (ps : List String) (c : String)
    (l : Link) (h : linkFor sw m pre ps c = some l) :
    m.MatchString c = true ∧
      ∃ op, (sw.pathItem c).Get = some op ∧ l = ⟨op.Summary, MergeSort (split pre c) ps⟩ := by
  unfold linkFor at h
  by_cases hm : m.MatchString c = true
  · rw [if_pos hm] at h
    cases hg : (sw.pathItem c).Get with
    | none => rw [hg] at h; simp at h
    | some op =>
      rw [hg] at h
      simp only [Option.map_some', Option.some.injEq] at h
      exact ⟨hm, op, rfl, h.symm⟩
  · rw [if_neg hm] at h; simp at h

theorem forall₂_filter_filterMap_mem {α β : Type} (f : α → Option β) (R : α → β → Prop) :
    ∀ l : List α, (∀ a ∈ l, ∀ b, f a = some b → R a b) →
      List.Forall₂ R (l.filter fun a => (f a).isSome) (l.filterMap f) := by
  intro l
  induction l with
  | nil => intro _; exact List.Forall₂.nil
  | cons a l ih =>
    intro h
    have ih' := ih fun a' ha' => h a' (List.mem_cons_of_mem _ ha')
    cases hf : f a with
    | none => simpa [List.filter_cons, List.filterMap_cons, hf] using ih'
    | some b =>
      simp only [List.filter_cons, List.filterMap_cons, hf, Option.isSome_some, if_true]
      exact List.Forall₂.cons (h a (List.mem_cons_self _ _) b hf) ih'

theorem selected_links (sw : Swagger) (m : Matcher) (ps : List String)
    (R : String → Link → Prop)
    (h : ∀ c op, c ∈ sw.keys → m.MatchString c = true → (sw.pathItem c).Get = some op →
      R c ⟨op.Summary, MergeSort (split parameterRegexp c) ps⟩) :
    List.Forall₂ R (selected sw m) (sw.keys.filterMap (linkFor sw m parameterRegexp ps)) := by
  rw [selected_eq sw m parameterRegexp ps]
  apply forall₂_filter_filterMap_mem
  intro c hc l hl
  obtain ⟨hm, op, hop, rfl⟩ := linkFor_some sw m parameterRegexp ps c l hl
  exact h c op hc hm hop

theorem AddLinks_selected (lib : Library) (sw : Swagger) (path : String) (ps : List String)
    (R : Matcher → String → Link → Prop)
    (h : ∀ m c op, c ∈ sw.keys → m.MatchString c = true → (sw.pathItem c).Get = some op →
      R m c ⟨op.Summary, MergeSort (split parameterRegexp c) ps⟩) :
    ∃ P, EchoToSwagger path = .ok P ∧
      ((∃ e, mustCompile lib (contextRegex P) = .error e ∧ AddLinks lib sw path ps = .error e) ∨
        ∃ m links, mustCompile lib (contextRegex P) = .ok m ∧
          AddLinks lib sw path ps = .ok (links, none) ∧
          links = sw.keys.filterMap (linkFor sw m parameterRegexp ps) ∧
          List.Forall₂ (R m) (selected sw m) links) := by
  obtain ⟨P, hP, hcases⟩ := AddLinks_cases lib sw path ps
  refine ⟨P, hP, ?_⟩
  rcases hcases with ⟨e, he, ha⟩ | ⟨m, hm, ha⟩
  · exact Or.inl ⟨e, he, ha⟩
  · exact Or.inr ⟨m, _, hm, ha, rfl, selected_links sw m ps (R m) (h m)⟩

theorem rewriteTokens_of_no_token : ∀ (t : List Char), hasToken t = false →
    rewriteTokens 0 t = t := by
  intro t
  induction t with
  | nil => intro _; rfl
  | cons c t ih =>
    intro h
    simp only [hasToken, Bool.or_eq_false_iff, Bool.and_eq_false_iff] at h
    obtain ⟨h1, h2⟩ := h
    have hn : ¬ (c = ':' ∧ t.takeWhile isWordChar ≠ []) := by
      rintro ⟨rfl, hw⟩
      rcases h1 with h1 | h1
      · simp at h1
      · cases t with
        | nil => simp at hw
        | cons d u =>
          simp only [List.head?_cons, Option.map_some', Option.getD_some] at h1
          simp [List.takeWhile_cons, h1] at hw
    simp only [rewriteTokens, hn, if_false, ih h2]

/-- C5: `EchoToSwagger` never fails and returns the path with every colon followed by
one or more word characters (leftmost first, as long as possible, not overlapping)
rewritten as the same identifier in braces without the colon, all other characters
unchanged and in order; `/users/:id/posts` becomes `/users/{id}/posts`. -/
theorem echoToSwagger_rewrites_tokens (path : String) :
    EchoToSwagger path = .ok (String.mk (rewriteTokens 0 path.data)) ∧
      EchoToSwagger "/users/:id/posts" = .ok "/users/{id}/posts" :=
  ⟨EchoToSwagger_eq path, rfl⟩

/-- C6: a path with no parameter token (no colon immediately followed by a word
character) is returned unchanged by `EchoToSwagger`. -/
theorem echoToSwagger_without_token (path : String) (h : hasToken path.data = false) :
    EchoToSwagger path = .ok path := by
  rw [EchoToSwagger_eq, rewriteTokens_of_no_token _ h]

theorem echoToSwagger_without_token_witness :
    (hasToken "".data = false ∧ EchoToSwagger "" = .ok "") ∧
      (hasToken "/".data = false ∧ EchoToSwagger "/" = .ok "/") ∧
      (hasToken "/users/posts:".data = false ∧
        EchoToSwagger "/users/posts:" = .ok "/users/posts:") :=
  ⟨⟨by decide, echoToSwagger_without_token "" (by decide)⟩,
    ⟨by decide, echoToSwagger_without_token "/" (by decide)⟩,
    ⟨by decide, echoToSwagger_without_token "/users/posts:" (by decide)⟩⟩

theorem zipWith_join_eq (A B : List String) :
    stringsJoin (List.zipWith (fun a b => [a, b]) A B).flatten =
      stringsJoin (List.zipWith (fun a b => a ++ b) A B) := by
  induction A generalizing B with
  | nil => simp
  | cons a A ih =>
    cases B with
    | nil => simp
    | cons b B =>
      simp only [List.zipWith_cons_cons, List.flatten_cons, stringsJoin_append, stringsJoin_cons, ih]
      apply String.ext
      simp [stringsJoin, String.data_append]

theorem MergeSort_of_lt (A B : List String) (h : B.length < A.length) :
    MergeSort A B =
      stringsJoin (List.zipWith (fun a b => a ++ b) (A.take B.length) B) ++
        stringsJoin (A.drop B.length) := by
  rw [MergeSort_eq_weave, weave_of_lt A B h, stringsJoin_append, zipWith_join_eq]

/-- C7: when `second` is shorter than `first`, `MergeSort` is the concatenation, with
no separators, of the pairs `first[i] + second[i]` for all of `second`, followed by the
remaining elements of `first`; with one element more in `first` both lists are used up
in alternation, ending with the last element of `first`; with `second` empty the result
is the concatenation of `first`, its only element when it has one. -/
theorem mergeSort_shorter_second (A B : List String) (h : B.length < A.length) :
    MergeSort A B =
        stringsJoin (List.zipWith (fun a b => a ++ b) (A.take B.length) B) ++
          stringsJoin (A.drop B.length) ∧
      (A.length = B.length + 1 →
        MergeSort A B =
          stringsJoin (List.zipWith (fun a b => a ++ b) A.dropLast B) ++ A.getLast?.getD "") ∧
      (B = [] → MergeSort A B = stringsJoin A) ∧
      (∀ a : String, MergeSort [a] [] = a) := by
  have main := MergeSort_of_lt A B h
  refine ⟨main, ?_, ?_, ?_⟩
  · intro hlen
    rw [main]
    have h1 : A.take B.length = A.dropLast := by
      rw [List.dropLast_eq_take, hlen]; rfl
    have h2 : A.drop B.length = [A.getLast?.getD ""] := by
      have hne : A ≠ [] := by intro x; subst x; simp at h
      have := List.dropLast_append_getLast hne
      conv_lhs => rw [← this, ← h1]
      rw [List.drop_left']
      · simp [List.getLast?_eq_getLast _ hne]
      · simp; omega
    rw [h1, h2]
    apply String.ext
    simp [stringsJoin, String.data_append]
  · intro hB
    subst hB
    rw [MergeSort_eq_weave, weave_nil_right]
  · intro a
    rw [MergeSort_eq_weave]
    apply String.ext
    simp [weave, stringsJoin]

theorem mergeSort_shorter_second_witness :
    ["42"].length < ["/users/", "/posts"].length ∧
      MergeSort ["/users/", "/posts"] ["42"] = "/users/42/posts" :=
  ⟨by decide, (mergeSort_shorter_second ["/users/", "/posts"] ["42"] (by decide)).1⟩

theorem isChild_iff (base c : List Char) :
    isChild base c = true ↔ ∃ v : List Char, (∀ ch ∈ v, isSegmentChar ch = true) ∧
      c = base ++ '/' :: v := by
  unfold isChild
  constructor
  · intro h
    simp only [Bool.and_eq_true] at h
    obtain ⟨h1, h2⟩ := h
    obtain ⟨rest, rfl⟩ := List.isPrefixOf_iff_prefix.mp h1
    rw [List.drop_left] at h2
    cases rest with
    | nil => simp at h2
    | cons d v =>
      simp only [Bool.and_eq_true, beq_iff_eq, List.all_eq_true] at h2
      obtain ⟨rfl, hv⟩ := h2
      exact ⟨v, hv, rfl⟩
  · rintro ⟨v, hv, rfl⟩
    have h1 : base.isPrefixOf (base ++ '/' :: v) = true :=
      List.isPrefixOf_iff_prefix.mpr (List.prefix_append _ _)
    rw [h1, List.drop_left]
    simpa using hv

theorem compile_context_plain (P : String) (hP : ∀ c ∈ P.data, isMeta c = false) :
    ∃ hre, compile (contextRegex P) = .ok hre ∧
      ∀ c : String, matchString hre c = isChild (childBase P).data c.data := by
  by_cases h : P = "/"
  · subst h
    exact ⟨_, compile_rootRegex, fun c => matchString_root c⟩
  · refine ⟨_, compile_contextRegex P h hP, fun c => ?_⟩
    rw [matchString_chain]
    simp [childBase, h]

theorem mem_selected (sw : Swagger) (m : Matcher) (c : String) :
    c ∈ selected sw m ↔
      c ∈ sw.keys ∧ m.MatchString c = true ∧ (sw.pathItem c).Get ≠ none := by
  unfold selected
  rw [List.mem_filter]
  cases hg : (sw.pathItem c).Get <;> simp

theorem child_form (base c : String) (h : c ≠ base ++ "/") :
    isChild base.data c.data = true ↔
      ∃ s : String, s ≠ "" ∧ (∀ ch ∈ s.data, isSegmentChar ch = true) ∧ c = base ++ "/" ++ s := by
  rw [isChild_iff]
  constructor
  · rintro ⟨v, hv, e⟩
    refine ⟨String.mk v, ?_, hv, ?_⟩
    · intro hs
      have : v = [] := congrArg String.data hs
      subst this
      apply h
      apply String.ext
      simpa [String.data_append] using e
    · apply String.ext
      simpa [String.data_append] using e
  · rintro ⟨s, _, hs, e⟩
    refine ⟨s.data, hs, ?_⟩
    have := congrArg String.data e
    simpa [String.data_append] using this

/-- C1 (amended): for a well-formed catalog and a request path whose translated form
`P` has none of the characters `\ . + * ? ( ) | [ ^ $`, either the pattern is not small
and the library refuses it, and `AddLinks` panics, or `AddLinks` returns with a nil
error one link per selected catalog path, each selected once, and a catalog path other
than `B + "/"` is selected exactly when it is in the catalog, has a GET operation and is
`B + "/" + s` for a non-empty `s` of ASCII letters and braces, where `B` is `P`, or the
empty text when `P` is `/`. -/
theorem addLinks_children (lib : Library) (sw : Swagger) (path : String) (ps : List String)
    (P : String) (hwf : sw.WellFormed) (hP : EchoToSwagger path = .ok P)
    (hplain : ∀ ch ∈ P.data, isMeta ch = false) :
    (∃ e, isSmall (contextRegex P) = false ∧ lib.rejects (contextRegex P) = some e ∧
        mustCompile lib (contextRegex P) = .error e ∧ AddLinks lib sw path ps = .error e) ∨
      ∃ (sel : List String) (links : List Link),
        AddLinks lib sw path ps = .ok (links, none) ∧
        List.Forall₂ (fun (c : String) (link : Link) => ∃ op, (sw.pathItem c).Get = some op ∧ link.Rel = op.Summary)
          sel links ∧
        sel.Nodup ∧
        ∀ c : String, c ≠ childBase P ++ "/" →
          (c ∈ sel ↔
            (c ∈ sw.Paths.map Prod.fst ∧ (sw.pathItem c).Get ≠ none ∧
              ∃ s : String, s ≠ "" ∧ (∀ ch ∈ s.data, isSegmentChar ch = true) ∧
                c = childBase P ++ "/" ++ s)) := by
  obtain ⟨hre, hc, hm⟩ := compile_context_plain P hplain
  have hP' : P = String.mk (rewriteTokens 0 path.data) := by
    rw [EchoToSwagger_eq] at hP
    simp only [Except.ok.injEq] at hP
    exact hP.symm
  rcases mustCompile_cases lib (contextRegex P) hre hc with ⟨e, hs, hr, he⟩ | hok
  · left
    refine ⟨e, hs, hr, he, ?_⟩
    rw [AddLinks_eq, ← hP', he]
  · right
    refine ⟨selected sw ⟨matchString hre⟩,
      sw.keys.filterMap (linkFor sw ⟨matchString hre⟩ parameterRegexp ps), ?_, ?_, ?_, ?_⟩
    · rw [AddLinks_eq, ← hP', hok]
    · exact selected_links sw _ ps _ fun c op _ _ hop => ⟨op, hop, rfl⟩
    · exact List.Nodup.filter _ hwf
    · intro c hne
      rw [mem_selected]
      show (c ∈ sw.keys ∧ matchString hre c = true ∧ _) ↔ _
      rw [hm, child_form _ _ hne]
      constructor
      · rintro ⟨h1, h2, h3⟩; exact ⟨h1, h3, h2⟩
      · rintro ⟨h1, h2, h3⟩; exact ⟨h1, h3, h2⟩

theorem lookup_of_mem_nodup : ∀ (l : List (String × PathItem)) (k : String) (v : PathItem),
    (l.map Prod.fst).Nodup → (k, v) ∈ l → l.lookup k = some v := by
  intro l
  induction l with
  | nil => intro k v _ h; simp at h
  | cons a l ih =>
    intro k v hn hm
    obtain ⟨k', v'⟩ := a
    simp only [List.map_cons, List.nodup_cons, List.mem_map, not_exists, not_and] at hn
    simp only [List.mem_cons, Prod.mk.injEq] at hm
    rcases hm with ⟨rfl, rfl⟩ | hm
    · simp [List.lookup]
    · have hne : k ≠ k' := by
        rintro rfl
        exact hn.1 (k, v) hm rfl
      have : (k == k') = false := by simpa using hne
      simp only [List.lookup, this]
      exact ih k v hn.2 hm

theorem filterMap_keys (sw : Swagger) (hwf : sw.WellFormed) (F : String → PathItem → Option Link) :
    sw.keys.filterMap (fun c => F c (sw.pathItem c)) = sw.Paths.filterMap fun kv => F kv.1 kv.2 := by
  unfold Swagger.keys
  rw [List.filterMap_map]
  apply List.filterMap_congr
  intro kv hkv
  have := lookup_of_mem_nodup sw.Paths kv.1 kv.2 hwf hkv
  simp [Swagger.pathItem, this]

theorem addLinks_chain (lib : Library) (sw : Swagger) (hwf : sw.WellFormed) (path : String)
    (ps : List String) (base : List Char)
    (hs : isSmall (contextRegex (String.mk (rewriteTokens 0 path.data))) = true)
    (hc : compile (contextRegex (String.mk (rewriteTokens 0 path.data))) =
      .ok (.concat .beginText (literalChain childTail base))) :
    AddLinks lib sw path ps = .ok (sw.Paths.filterMap (entryLink base ps), none) := by
  rw [AddLinks_eq, mustCompile_small lib _ _ hs hc]
  simp only
  have := filterMap_keys sw hwf fun c item =>
    if isChild base c.data then
      item.Get.map fun get =>
        ({ Rel := get.Summary, HREF := MergeSort (split parameterRegexp c) ps } : Link)
    else none
  unfold entryLink
  rw [← this]
  congr 2
  apply List.filterMap_congr
  intro c _
  simp [linkFor, matchString_chain]

theorem split_users_id : split parameterRegexp "/users/{id}" = ["/users/", ""] := by rfl

theorem split_users_id_posts :
    split parameterRegexp "/users/{id}/posts" = ["/users/", "/posts"] := by rfl

/-- C9: for the catalog with the paths `/`, `/users`, `/users/{id}`, `/users/{id}/posts`,
all with GET operations and in any enumeration order, `AddLinks` on `/users` yields
exactly the link for `/users/{id}`, on `/users/{id}` and on the router form `/users/:id`
exactly the link for `/users/{id}/posts`, and on `/users/{id}/posts` no link. -/
theorem addLinks_example_catalog (lib : Library) (info : Info)
    (root users user posts : Operation) (paths : List (String × PathItem)) (ps : List String)
    (h : paths.Perm [("/", ⟨some root⟩), ("/users", ⟨some users⟩),
      ("/users/{id}", ⟨some user⟩), ("/users/{id}/posts", ⟨some posts⟩)]) :
    AddLinks lib ⟨info, paths⟩ "/users" ps =
        .ok ([⟨user.Summary, MergeSort ["/users/", ""] ps⟩], none) ∧
      AddLinks lib ⟨info, paths⟩ "/users/{id}" ps =
        .ok ([⟨posts.Summary, MergeSort ["/users/", "/posts"] ps⟩], none) ∧
      AddLinks lib ⟨info, paths⟩ "/users/:id" ps =
        .ok ([⟨posts.Summary, MergeSort ["/users/", "/posts"] ps⟩], none) ∧
      AddLinks lib ⟨info, paths⟩ "/users/{id}/posts" ps = .ok ([], none) := by
  have hwf : (⟨info, paths⟩ : Swagger).WellFormed := by
    unfold Swagger.WellFormed
    have := (h.map Prod.fst).nodup_iff
    simp only at this ⊢
    rw [this]
    simp only [List.map_cons, List.map_nil]
    decide
  have e1 := addLinks_chain lib ⟨info, paths⟩ hwf "/users" ps "/users".data rfl rfl
  have e2 := addLinks_chain lib ⟨info, paths⟩ hwf "/users/{id}" ps "/users/{id}".data rfl rfl
  have e3 := addLinks_chain lib ⟨info, paths⟩ hwf "/users/:id" ps "/users/{id}".data rfl rfl
  have e4 := addLinks_chain lib ⟨info, paths⟩ hwf "/users/{id}/posts" ps "/users/{id}/posts".data rfl rfl
  have p1 := h.filterMap (entryLink "/users".data ps)
  have p2 := h.filterMap (entryLink "/users/{id}".data ps)
  have p4 := h.filterMap (entryLink "/users/{id}/posts".data ps)
  have d1 : isChild "/users".data "/".data = false := by decide
  have d2 : isChild "/users".data "/users".data = false := by decide
  have d3 : isChild "/users".data "/users/{id}".data = true := by decide
  have d4 : isChild "/users".data "/users/{id}/posts".data = false := by decide
  have d5 : isChild "/users/{id}".data "/".data = false := by decide
  have d6 : isChild "/users/{id}".data "/users".data = false := by decide
  have d7 : isChild "/users/{id}".data "/users/{id}".data = false := by decide
  have d8 : isChild "/users/{id}".data "/users/{id}/posts".data = true := by decide
  have d9 : isChild "/users/{id}/posts".data "/".data = false := by decide
  have d10 : isChild "/users/{id}/posts".data "/users".data = false := by decide
  have d11 : isChild "/users/{id}/posts".data "/users/{id}".data = false := by decide
  have d12 : isChild "/users/{id}/posts".data "/users/{id}/posts".data = false := by decide
  simp only [List.filterMap_cons, List.filterMap_nil, entryLink, d1, d2, d3, d4, d5, d6, d7, d8,
    d9, d10, d11, d12, if_true, if_false, Option.map_some', split_users_id, split_users_id_posts,
    Bool.false_eq_true] at p1 p2 p4
  rw [List.perm_singleton] at p1 p2
  rw [List.perm_nil] at p4
  simp only at e1 e2 e3 e4
  rw [e1, e2, e3, e4, p1, p2, p4]
  exact ⟨rfl, rfl, rfl, rfl⟩

theorem addLinks_example_catalog_witness :
    demoCatalog.Paths.Perm [("/", ⟨some ⟨"root"⟩⟩), ("/users", ⟨some ⟨"list users"⟩⟩),
        ("/users/{id}", ⟨some ⟨"get user"⟩⟩), ("/users/{id}/posts", ⟨some ⟨"list posts"⟩⟩)] ∧
      (AddLinks strictLibrary demoCatalog "/users" ["42"] = .ok ([⟨"get user", "/users/42"⟩], none) ∧
        AddLinks strictLibrary demoCatalog "/users/{id}" ["42"] =
          .ok ([⟨"list posts", "/users/42/posts"⟩], none) ∧
        AddLinks strictLibrary demoCatalog "/users/:id" ["42"] =
          .ok ([⟨"list posts", "/users/42/posts"⟩], none) ∧
        AddLinks strictLibrary demoCatalog "/users/{id}/posts" ["42"] = .ok ([], none)) :=
  ⟨List.Perm.refl _,
    addLinks_example_catalog strictLibrary ⟨"T", "D", "1.0"⟩ ⟨"root"⟩ ⟨"list users"⟩ ⟨"get user"⟩ ⟨"list posts"⟩
      demoCatalog.Paths ["42"] (List.Perm.refl _)⟩

/-- C3: `AddLinks` panics when `regexp.MustCompile` panics on the pattern built from the
path, and returns otherwise; then every link comes from a catalog path that the pattern
matches and whose GET operation is defined, a path without GET operation contributes no
link, and there are as many links as matching catalog paths with a GET operation.  In
the catalog `mixedCatalog` the path `/orders`, a child of the root, and the path
`/users/{id}/posts`, a child of `/users/{id}`, have no GET operation and get no link. -/
theorem addLinks_only_get (lib : Library) (sw : Swagger) (path : String) (ps : List String) :
    (∃ P, EchoToSwagger path = .ok P ∧
      ((∃ e, mustCompile lib (contextRegex P) = .error e ∧ AddLinks lib sw path ps = .error e) ∨
        ∃ m links, mustCompile lib (contextRegex P) = .ok m ∧
          AddLinks lib sw path ps = .ok (links, none) ∧
          List.Forall₂
            (fun (c : String) (link : Link) => c ∈ sw.Paths.map Prod.fst ∧ m.MatchString c = true ∧
              ∃ op, (sw.pathItem c).Get = some op ∧ link.Rel = op.Summary)
            (selected sw m) links ∧
          (∀ c, (sw.pathItem c).Get = none → c ∉ selected sw m) ∧
          links.length =
            (sw.Paths.map Prod.fst).countP fun c =>
              m.MatchString c && (sw.pathItem c).Get.isSome)) ∧
      ((mixedCatalog.pathItem "/orders").Get = none ∧
        (mixedCatalog.pathItem "/users/{id}/posts").Get = none ∧
        AddLinks lib mixedCatalog "/" ps = .ok ([⟨"list users", MergeSort ["/users"] ps⟩], none) ∧
        AddLinks lib mixedCatalog "/users/{id}" ps = .ok ([], none)) := by
  refine ⟨?_, rfl, rfl, rfl, rfl⟩
  obtain ⟨P, hP, hcases⟩ := AddLinks_selected lib sw path ps
    (fun m (c : String) (link : Link) => c ∈ sw.Paths.map Prod.fst ∧ m.MatchString c = true ∧
      ∃ op, (sw.pathItem c).Get = some op ∧ link.Rel = op.Summary)
    (fun _ c op hc hm hop => ⟨hc, hm, op, hop, rfl⟩)
  refine ⟨P, hP, ?_⟩
  rcases hcases with h | ⟨m, links, hm, ha, _, hf⟩
  · exact Or.inl h
  · refine Or.inr ⟨m, links, hm, ha, hf, ?_, ?_⟩
    · intro c hg hs
      exact ((mem_selected sw m c).mp hs).2.2 hg
    · rw [← hf.length_eq, List.countP_eq_length_filter]
      rfl


/-- C4 (failing input): for the request path `/users/(` the pattern built by `AddLinks`
is `^\/users\/(\/[a-zA-Z{}]*$`, which has no closing parenthesis, so that
`regexp.MustCompile` panics instead of `AddLinks` returning a list. -/
theorem addLinks_panics_on_open_paren :
    EchoToSwagger "/users/(" = .ok "/users/(" ∧
      contextRegex "/users/(" = "^\\/users\\/(\\/[a-zA-Z{}]*$" ∧
      compile "^\\/users\\/(\\/[a-zA-Z{}]*$" = .error .missingParen ∧
      ∀ lib : Library,
        mustCompile lib "^\\/users\\/(\\/[a-zA-Z{}]*$" = .error .missingParen ∧
        AddLinks lib demoCatalog "/users/(" [] = .error .missingParen :=
  ⟨rfl, rfl, rfl, fun _ => ⟨rfl, rfl⟩⟩

/-- C8 (failing input): when `/` has a GET operation too, `AddLinks` on the root path
returns two links, one for `/` itself and one for `/users`. -/
theorem addLinks_root_links_itself (lib : Library) :
    AddLinks lib demoCatalog "/" [] = .ok ([⟨"root", "/"⟩, ⟨"list users", "/users"⟩], none) :=
  rfl

/-- C1 (counterexample): the child `/api/v1` of `/api` has a GET operation and gets no
link; and on `/a.b` the path `/axb/c`, which does not begin with `/a.b/`, gets a link. -/
theorem child_links_counterexample :
    ((versionedCatalog.pathItem "/api/v1").Get ≠ none ∧ "/api/v1" = "/api" ++ "/" ++ "v1" ∧
        '/' ∉ "v1".data ∧ EchoToSwagger "/api" = .ok "/api" ∧
        ∀ lib : Library, AddLinks lib versionedCatalog "/api" [] = .ok ([], none)) ∧
      (EchoToSwagger "/a.b" = .ok "/a.b" ∧
        ("/a.b" ++ "/").data.isPrefixOf "/axb/c".data = false ∧
        ∀ lib : Library,
          AddLinks lib strayCatalog "/a.b" [] = .ok ([⟨"stray", "/axb/c"⟩], none)) :=
  ⟨⟨by decide, rfl, by decide, rfl, fun _ => rfl⟩, ⟨rfl, by decide, fun _ => rfl⟩⟩

theorem addLinks_children_witness :
    (demoCatalog.WellFormed ∧ EchoToSwagger "/users/:id" = .ok "/users/{id}" ∧
        ∀ ch ∈ "/users/{id}".data, isMeta ch = false) ∧
      AddLinks strictLibrary demoCatalog "/users/:id" [] =
        .ok ([⟨"list posts", "/users//posts"⟩], none) ∧
      ((∃ e, isSmall (contextRegex "/users/{id}") = false ∧
          strictLibrary.rejects (contextRegex "/users/{id}") = some e ∧
          mustCompile strictLibrary (contextRegex "/users/{id}") = .error e ∧
          AddLinks strictLibrary demoCatalog "/users/:id" [] = .error e) ∨
        ∃ (sel : List String) (links : List Link),
          AddLinks strictLibrary demoCatalog "/users/:id" [] = .ok (links, none) ∧
          List.Forall₂
            (fun (c : String) (link : Link) => ∃ op, (demoCatalog.pathItem c).Get = some op ∧ link.Rel = op.Summary)
            sel links ∧
          sel.Nodup ∧
          ∀ c : String, c ≠ childBase "/users/{id}" ++ "/" →
            (c ∈ sel ↔
              (c ∈ demoCatalog.Paths.map Prod.fst ∧ (demoCatalog.pathItem c).Get ≠ none ∧
                ∃ s : String, s ≠ "" ∧ (∀ ch ∈ s.data, isSegmentChar ch = true) ∧
                  c = childBase "/users/{id}" ++ "/" ++ s))) :=
  ⟨⟨by unfold Swagger.WellFormed; decide, rfl, by decide⟩, rfl,
    addLinks_children strictLibrary demoCatalog "/users/:id" [] "/users/{id}"
      (by unfold Swagger.WellFormed; decide) rfl (by decide)⟩

theorem weave_eq_zipWith : ∀ (A B : List String),
    weave A B = (List.zipWith (fun a b => [a, b]) A B).flatten ++ A.drop B.length := by
  intro A
  induction A with
  | nil => intro B; simp [weave]
  | cons a A ih =>
    intro B
    cases B with
    | nil => simp [weave_nil_right]
    | cons b B => simp [weave, ih B]

theorem MergeSort_eq_zipWith (A B : List String) :
    MergeSort A B =
      stringsJoin (List.zipWith (fun a b => a ++ b) A B) ++ stringsJoin (A.drop B.length) := by
  rw [MergeSort_eq_weave, weave_eq_zipWith, stringsJoin_append, zipWith_join_eq]

theorem zipWith_take_length : ∀ (A B : List String),
    List.zipWith (fun a b => a ++ b) A (B.take A.length) =
      List.zipWith (fun a b => a ++ b) A B := by
  intro A
  induction A with
  | nil => intro B; simp
  | cons a A ih =>
    intro B
    cases B with
    | nil => simp
    | cons b B => simp [ih B]

theorem MergeSort_of_le (A B : List String) (h : A.length ≤ B.length) :
    MergeSort A B = stringsJoin (List.zipWith (fun a b => a ++ b) A (B.take A.length)) := by
  rw [MergeSort_eq_zipWith, List.drop_eq_nil_of_le h, zipWith_take_length]
  apply String.ext
  simp [stringsJoin, String.data_append]

/-- C14 (counterexample): with `first` one element long and `second` two, the second
element of `second` is not emitted. -/
theorem mergeSort_longer_second_counterexample :
    MergeSort ["a"] ["1", "2"] = "a1" ∧ MergeSort ["a"] ["1", "2"] ≠ "a" ++ "1" ++ "2" :=
  ⟨rfl, by decide⟩

/-- C14 (amended): for all lists, `MergeSort` is the concatenation, with no separators,
of the pairs `first[i] + second[i]` as long as both lists last, followed by the
remaining elements of `first`; remaining elements of `second` are not emitted. -/
theorem mergeSort_interleaves (A B : List String) :
    MergeSort A B =
      stringsJoin (List.zipWith (fun a b => a ++ b) A B) ++ stringsJoin (A.drop B.length) :=
  MergeSort_eq_zipWith A B

/-- C15: when `second` is at least as long as `first`, `MergeSort` is the concatenation
of the pairs `first[i] + second[i]` for all of `first`; the elements of `second` from
index `len(first)` on are not emitted, and with `first` empty the result is empty. -/
theorem mergeSort_longer_second (A B : List String) (h : A.length ≤ B.length) :
    MergeSort A B = stringsJoin (List.zipWith (fun a b => a ++ b) A (B.take A.length)) ∧
      MergeSort [] B = "" := by
  exact ⟨MergeSort_of_le A B h, rfl⟩

theorem mergeSort_longer_second_witness :
    ["a", "b"].length ≤ ["1", "2", "3"].length ∧
      (MergeSort ["a", "b"] ["1", "2", "3"] = "a1b2" ∧ MergeSort [] ["1", "2", "3"] = "") :=
  ⟨by decide, mergeSort_longer_second ["a", "b"] ["1", "2", "3"] (by decide)⟩

/-- C16: for a loaded document with the information `T`, `D`, `V`, `GetInfo` returns the
bundle with these three texts and no links and leaves the document as it was.
`RootResponse` panics when `AddLinks` does; otherwise `AddLinks` returns a link list `L`
for the request path, the bundle of `RootResponse` is `T`, `D`, `V` with the links `L`,
and the document is as it was.  For the four-path catalog and the request path `/users`
the bundle is `T`, `D`, `1.0` with the one link of `/users/{id}`. -/
theorem rootResponse_bundle (lib : Library) (T D V : String) (paths : List (String × PathItem))
    (path : String) :
    GetInfo ⟨⟨T, D, V⟩, paths⟩ = (⟨T, D, V, []⟩, ⟨⟨T, D, V⟩, paths⟩) ∧
      ((∃ e, AddLinks lib ⟨⟨T, D, V⟩, paths⟩ path [] = .error e ∧
          RootResponse lib ⟨⟨T, D, V⟩, paths⟩ path = .error e) ∨
        ∃ L, AddLinks lib ⟨⟨T, D, V⟩, paths⟩ path [] = .ok (L, none) ∧
          RootResponse lib ⟨⟨T, D, V⟩, paths⟩ path =
            .ok (⟨T, D, V, L⟩, ⟨⟨T, D, V⟩, paths⟩)) ∧
      RootResponse lib demoCatalog "/users" =
        .ok (⟨"T", "D", "1.0", [⟨"get user", "/users/"⟩]⟩, demoCatalog) := by
  refine ⟨rfl, ?_, rfl⟩
  obtain ⟨P, _, hcases⟩ := AddLinks_cases lib ⟨⟨T, D, V⟩, paths⟩ path []
  rcases hcases with ⟨e, _, ha⟩ | ⟨m, _, ha⟩
  · exact Or.inl ⟨e, ha, by simp [RootResponse, GetInfo, ha]⟩
  · exact Or.inr ⟨_, ha, by simp [RootResponse, GetInfo, ha]⟩


theorem isWordChar_ne_colon {c : Char} (h : isWordChar c = true) : c ≠ ':' := by
  rintro rfl
  exact absurd h (by decide)

theorem hasToken_word_append : ∀ (w rest : List Char), (∀ c ∈ w, isWordChar c = true) →
    hasToken (w ++ rest) = hasToken rest := by
  intro w
  induction w with
  | nil => intro rest _; rfl
  | cons c w ih =>
    intro rest hw
    have hc : c ≠ ':' := isWordChar_ne_colon (hw c (List.mem_cons_self _ _))
    have : (c == ':') = false := by simpa using hc
    simp only [List.cons_append, hasToken, this, Bool.false_and, Bool.false_or]
    exact ih rest fun d hd => hw d (List.mem_cons_of_mem _ hd)

theorem head_rewriteTokens (t : List Char) (d : Char)
    (h : (rewriteTokens 0 t).head? = some d) (hd : isWordChar d = true) : t.head? = some d := by
  cases t with
  | nil => simp [rewriteTokens] at h
  | cons c u =>
    rw [rewriteTokens_cons] at h
    cases hr : tokenRest (c :: u) with
    | some r =>
      rw [hr] at h
      have h2 : d = '{' := by
        have : some '{' = some d := h
        exact (Option.some.inj this).symm
      subst h2
      exact absurd hd (by decide)
    | none =>
      rw [hr] at h
      simpa using h

theorem hasToken_rewriteTokens : ∀ (n : Nat) (t : List Char), t.length ≤ n →
    hasToken (rewriteTokens 0 t) = false := by
  intro n
  induction n with
  | zero =>
    intro t h
    have : t = [] := List.length_eq_zero.mp (Nat.le_zero.mp h)
    subst this
    rfl
  | succ n ih =>
    intro t h
    cases t with
    | nil => rfl
    | cons c u =>
      simp only [List.length_cons, Nat.add_le_add_iff_right] at h
      rw [rewriteTokens_cons]
      cases hr : tokenRest (c :: u) with
      | some r =>
        simp only [tokenRest] at hr
        split at hr
        · simp only [Option.some.injEq] at hr
          subst hr
          have hlen : (u.dropWhile isWordChar).length ≤ n :=
            Nat.le_trans (List.Sublist.length_le (List.dropWhile_sublist _)) h
          have hw : ∀ x ∈ u.takeWhile isWordChar, isWordChar x = true :=
            fun x hx => (List.mem_takeWhile_imp hx)
          have e1 : hasToken ('{' :: (u.takeWhile isWordChar ++
              '}' :: rewriteTokens 0 (u.dropWhile isWordChar))) =
              hasToken (u.takeWhile isWordChar ++
                '}' :: rewriteTokens 0 (u.dropWhile isWordChar)) := by
            simp [hasToken]
          have e2 : hasToken ('}' :: rewriteTokens 0 (u.dropWhile isWordChar)) =
              hasToken (rewriteTokens 0 (u.dropWhile isWordChar)) := by
            simp [hasToken]
          show hasToken ('{' :: (u.takeWhile isWordChar ++
              '}' :: rewriteTokens 0 (u.dropWhile isWordChar))) = false
          rw [e1, hasToken_word_append _ _ hw, e2]
          exact ih _ hlen
        · simp at hr
      | none =>
        show hasToken (c :: rewriteTokens 0 u) = false
        simp only [hasToken, Bool.or_eq_false_iff, Bool.and_eq_false_iff]
        refine ⟨?_, ih u h⟩
        by_cases hc : c = ':'
        · right
          cases hh : (rewriteTokens 0 u).head? with
          | none => rfl
          | some d =>
            simp only [Option.map_some', Option.getD_some]
            by_contra hd
            simp only [Bool.not_eq_false] at hd
            have hu := head_rewriteTokens u d hh hd
            cases u with
            | nil => simp at hu
            | cons d' u' =>
              simp only [List.head?_cons, Option.some.injEq] at hu
              subst hu
              simp [tokenRest, hc, List.takeWhile_cons, hd] at hr
        · left
          simpa using hc

/-- C19: for every path `p`, `EchoToSwagger` returns a path `q` that has no colon
immediately followed by a word character, applying `EchoToSwagger` to `q` returns `q`
again, and `AddLinks` gives the same result on `q` as on `p`. -/
theorem echoToSwagger_idempotent (p : String) :
    ∃ q, EchoToSwagger p = .ok q ∧ hasToken q.data = false ∧ EchoToSwagger q = .ok q ∧
      ∀ (lib : Library) (sw : Swagger) (ps : List String),
        AddLinks lib sw q ps = AddLinks lib sw p ps := by
  have hq : hasToken (rewriteTokens 0 p.data) = false := hasToken_rewriteTokens _ _ (Nat.le_refl _)
  have hq2 : rewriteTokens 0 (rewriteTokens 0 p.data) = rewriteTokens 0 p.data :=
    rewriteTokens_of_no_token _ hq
  refine ⟨String.mk (rewriteTokens 0 p.data), EchoToSwagger_eq p, hq, ?_, ?_⟩
  · rw [EchoToSwagger_eq]
    simp only [hq2]
  · intro lib sw ps
    rw [AddLinks_eq, AddLinks_eq]
    simp only [hq2]

theorem addLinks_entries (lib : Library) (sw : Swagger) (hwf : sw.WellFormed) (path : String)
    (ps : List String) (m : Matcher)
    (hc : mustCompile lib (contextRegex (String.mk (rewriteTokens 0 path.data))) = .ok m) :
    AddLinks lib sw path ps =
      .ok (sw.Paths.filterMap (fun kv =>
        if m.MatchString kv.1 then
          kv.2.Get.map fun get =>
            ({ Rel := get.Summary, HREF := MergeSort (split parameterRegexp kv.1) ps } : Link)
        else none), none) := by
  rw [AddLinks_eq, hc]
  simp only
  have := filterMap_keys sw hwf fun c item =>
    if m.MatchString c then
      item.Get.map fun get =>
        ({ Rel := get.Summary, HREF := MergeSort (split parameterRegexp c) ps } : Link)
    else none
  rw [← this]
  rfl

theorem forall₂_entries (m : Matcher) (ps : List String) (paths : List (String × PathItem)) :
    List.Forall₂
      (fun (kv : String × PathItem) (link : Link) => ∃ op, kv.2.Get = some op ∧
        link = ⟨op.Summary, MergeSort (split parameterRegexp kv.1) ps⟩)
      (paths.filter fun kv => m.MatchString kv.1 && kv.2.Get.isSome)
      (paths.filterMap (fun kv =>
        if m.MatchString kv.1 then
          kv.2.Get.map fun get =>
            ({ Rel := get.Summary, HREF := MergeSort (split parameterRegexp kv.1) ps } : Link)
        else none)) := by
  have e : (paths.filter fun kv => m.MatchString kv.1 && kv.2.Get.isSome) =
      paths.filter fun kv => (if m.MatchString kv.1 then
          kv.2.Get.map fun get =>
            ({ Rel := get.Summary, HREF := MergeSort (split parameterRegexp kv.1) ps } : Link)
        else none).isSome := by
    congr 1
    funext kv
    by_cases hm : m.MatchString kv.1 = true
    · cases hg : kv.2.Get <;> simp [hm]
    · simp [hm]
  rw [e]
  apply forall₂_filter_filterMap
  intro kv l hl
  by_cases hm : m.MatchString kv.1 = true
  · rw [if_pos hm] at hl
    cases hg : kv.2.Get with
    | none => rw [hg] at hl; simp at hl
    | some op =>
      rw [hg] at hl
      simp only [Option.map_some', Option.some.injEq] at hl
      exact ⟨op, rfl, hl.symm⟩
  · rw [if_neg hm] at hl; simp at hl

/-- C18: for two enumeration orders of the same catalog, `AddLinks` on the same request
path and parameter list either panics for both, when `regexp.MustCompile` panics on the
pattern built from the path, or returns for both, and then the two link lists are
permutations of each other, each being the links of the entries that the pattern matches
and that have a GET operation, in the order of its enumeration. -/
theorem addLinks_order_independent (lib : Library) (info : Info)
    (paths₁ paths₂ : List (String × PathItem)) (path : String) (ps : List String)
    (hperm : paths₁.Perm paths₂) (hwf : (paths₁.map Prod.fst).Nodup) :
    ∃ P, EchoToSwagger path = .ok P ∧
      ((∃ e, mustCompile lib (contextRegex P) = .error e ∧
          AddLinks lib ⟨info, paths₁⟩ path ps = .error e ∧
          AddLinks lib ⟨info, paths₂⟩ path ps = .error e) ∨
        (∃ m l₁ l₂, mustCompile lib (contextRegex P) = .ok m ∧
          AddLinks lib ⟨info, paths₁⟩ path ps = .ok (l₁, none) ∧
          AddLinks lib ⟨info, paths₂⟩ path ps = .ok (l₂, none) ∧
          l₁.Perm l₂ ∧
          List.Forall₂
            (fun (kv : String × PathItem) (link : Link) => ∃ op, kv.2.Get = some op ∧
              link = ⟨op.Summary, MergeSort (split parameterRegexp kv.1) ps⟩)
            (paths₁.filter fun kv => m.MatchString kv.1 && kv.2.Get.isSome) l₁ ∧
          List.Forall₂
            (fun (kv : String × PathItem) (link : Link) => ∃ op, kv.2.Get = some op ∧
              link = ⟨op.Summary, MergeSort (split parameterRegexp kv.1) ps⟩)
            (paths₂.filter fun kv => m.MatchString kv.1 && kv.2.Get.isSome) l₂)) := by
  have hwf₁ : (⟨info, paths₁⟩ : Swagger).WellFormed := hwf
  have hwf₂ : (⟨info, paths₂⟩ : Swagger).WellFormed := by
    unfold Swagger.WellFormed
    exact ((hperm.map Prod.fst).nodup_iff).mp hwf
  refine ⟨String.mk (rewriteTokens 0 path.data), EchoToSwagger_eq path, ?_⟩
  cases hc : mustCompile lib (contextRegex (String.mk (rewriteTokens 0 path.data))) with
  | error e =>
    left
    refine ⟨e, rfl, ?_, ?_⟩ <;> rw [AddLinks_eq, hc]
  | ok m =>
    right
    refine ⟨m, _, _, rfl,
      addLinks_entries lib ⟨info, paths₁⟩ hwf₁ path ps m hc,
      addLinks_entries lib ⟨info, paths₂⟩ hwf₂ path ps m hc, ?_, ?_, ?_⟩
    · exact hperm.filterMap _
    · exact forall₂_entries m ps paths₁
    · exact forall₂_entries m ps paths₂

theorem addLinks_order_independent_witness :
    (mixedCatalog.Paths.Perm mixedCatalog.Paths.reverse ∧
        (mixedCatalog.Paths.map Prod.fst).Nodup) ∧
      AddLinks strictLibrary ⟨demoCatalog.Info, demoCatalog.Paths⟩ "/" [] =
        .ok ([⟨"root", "/"⟩, ⟨"list users", "/users"⟩], none) ∧
      AddLinks strictLibrary ⟨demoCatalog.Info, demoCatalog.Paths.reverse⟩ "/" [] =
        .ok ([⟨"list users", "/users"⟩, ⟨"root", "/"⟩], none) ∧
      AddLinks strictLibrary ⟨mixedCatalog.Info, mixedCatalog.Paths⟩ "/" [] =
        .ok ([⟨"list users", "/users"⟩], none) ∧
      AddLinks strictLibrary ⟨mixedCatalog.Info, mixedCatalog.Paths.reverse⟩ "/" [] =
        .ok ([⟨"list users", "/users"⟩], none) ∧
      ∃ P, EchoToSwagger "/" = .ok P ∧
        ((∃ e, mustCompile strictLibrary (contextRegex P) = .error e ∧
            AddLinks strictLibrary ⟨mixedCatalog.Info, mixedCatalog.Paths⟩ "/" [] = .error e ∧
            AddLinks strictLibrary ⟨mixedCatalog.Info, mixedCatalog.Paths.reverse⟩ "/" [] =
              .error e) ∨
          (∃ m l₁ l₂, mustCompile strictLibrary (contextRegex P) = .ok m ∧
            AddLinks strictLibrary ⟨mixedCatalog.Info, mixedCatalog.Paths⟩ "/" [] =
              .ok (l₁, none) ∧
            AddLinks strictLibrary ⟨mixedCatalog.Info, mixedCatalog.Paths.reverse⟩ "/" [] =
              .ok (l₂, none) ∧
            l₁.Perm l₂ ∧
            List.Forall₂
              (fun (kv : String × PathItem) (link : Link) => ∃ op, kv.2.Get = some op ∧
                link = ⟨op.Summary, MergeSort (split parameterRegexp kv.1) []⟩)
              (mixedCatalog.Paths.filter fun kv => m.MatchString kv.1 && kv.2.Get.isSome) l₁ ∧
            List.Forall₂
              (fun (kv : String × PathItem) (link : Link) => ∃ op, kv.2.Get = some op ∧
                link = ⟨op.Summary, MergeSort (split parameterRegexp kv.1) []⟩)
              (mixedCatalog.Paths.reverse.filter fun kv =>
                m.MatchString kv.1 && kv.2.Get.isSome) l₂)) :=
  ⟨⟨(List.reverse_perm _).symm, by decide⟩, rfl, rfl, rfl, rfl,
    addLinks_order_independent strictLibrary mixedCatalog.Info mixedCatalog.Paths
      mixedCatalog.Paths.reverse "/" [] (List.reverse_perm _).symm (by decide)⟩

theorem findFirst_match (m : List Char → Option (List Char)) (hm : Proper m) :
    ∀ (t g mt r : List Char), findFirst m t = some (g, mt, r) → m (mt ++ r) = some r := by
  intro t
  induction t with
  | nil =>
    intro g mt r h
    cases hr : m [] with
    | none => simp [findFirst, hr] at h
    | some r' =>
      obtain ⟨pre, hpre, e⟩ := hm _ _ hr
      cases pre with
      | nil => exact absurd rfl hpre
      | cons a b => simp at e
  | cons c t ih =>
    intro g mt r h
    cases hr : m (c :: t) with
    | some r' =>
      obtain ⟨pre, _, e⟩ := hm _ _ hr
      simp only [findFirst, hr, Option.some.injEq, Prod.mk.injEq] at h
      obtain ⟨_, hmt, rfl⟩ := h
      rw [e] at hmt
      simp at hmt
      subst hmt
      rw [← e]
      exact hr
    | none =>
      simp only [findFirst, hr, Option.map_eq_some'] at h
      obtain ⟨⟨g', mt', r'⟩, hf, he⟩ := h
      simp only [Prod.mk.injEq] at he
      obtain ⟨_, rfl, rfl⟩ := he
      exact ih _ _ _ hf

theorem token_match_tail (t g mt r : List Char) (h : findFirst tokenRest t = some (g, mt, r)) :
    ∀ c ∈ mt.tail, isWordChar c = true := by
  have hm := findFirst_match tokenRest proper_tokenRest t g mt r h
  obtain ⟨_, hne⟩ := findFirst_spec tokenRest proper_tokenRest t g mt r h
  cases mt with
  | nil => exact absurd rfl hne
  | cons a w =>
    simp only [List.cons_append, tokenRest] at hm
    split at hm
    · simp only [Option.some.injEq] at hm
      have h1 := List.takeWhile_append_dropWhile isWordChar (w ++ r)
      rw [hm] at h1
      have h2 : (w ++ r).takeWhile isWordChar = w := List.append_cancel_right h1
      intro c hc
      rw [List.tail_cons, ← h2] at hc
      exact List.mem_takeWhile_imp hc
    · simp at hm

theorem closeBrace_word : ∀ (w R : List Char), (∀ c ∈ w, isWordChar c = true) →
    closeBrace (w ++ '}' :: R) = some R := by
  intro w
  induction w with
  | nil => intro R _; simp [closeBrace]
  | cons c w ih =>
    intro R hw
    have hc := hw c (List.mem_cons_self _ _)
    have h1 : c ≠ '}' := by rintro rfl; exact absurd hc (by decide)
    have h2 : c ≠ '\n' := by rintro rfl; exact absurd hc (by decide)
    simp only [List.cons_append, closeBrace, h1, h2, if_false]
    exact ih R fun d hd => hw d (List.mem_cons_of_mem _ hd)

theorem findFirst_placeholder_gap : ∀ (g u : List Char), '{' ∉ g →
    findFirst placeholderRest (g ++ u) =
      (findFirst placeholderRest u).map fun p => (g ++ p.1, p.2.1, p.2.2) := by
  intro g
  induction g with
  | nil =>
    intro u _
    cases h : findFirst placeholderRest u with
    | none => simp [h]
    | some p => simp [h]
  | cons c g ih =>
    intro u hg
    simp only [List.mem_cons, not_or] at hg
    have hc : ¬ c = '{' := fun x => hg.1 x.symm
    rw [List.cons_append, findFirst]
    simp only [placeholderRest, hc, if_false]
    rw [ih u hg.2]
    cases findFirst placeholderRest u <;> simp

theorem findFirst_placeholder_nil : findFirst placeholderRest [] = none := rfl

theorem findFirst_placeholder_token (w R : List Char) (hw : ∀ c ∈ w, isWordChar c = true) :
    ∃ X, findFirst placeholderRest ('{' :: w ++ '}' :: R) = some ([], X, R) := by
  refine ⟨('{' :: (w ++ '}' :: R)).take (('{' :: (w ++ '}' :: R)).length - R.length), ?_⟩
  rw [List.cons_append, findFirst]
  simp only [placeholderRest, if_true, closeBrace_word w R hw]

theorem pieces_translated : ∀ (f₁ f₂ : Nat) (t : List Char), t.length < f₁ →
    (rewriteTokens 0 t).length < f₂ → '{' ∉ t →
    pieces placeholderRest f₂ (rewriteTokens 0 t) = pieces tokenRest f₁ t ∧
      (found placeholderRest f₂ (rewriteTokens 0 t)).length = (found tokenRest f₁ t).length := by
  intro f₁
  induction f₁ with
  | zero => intro f₂ t h; omega
  | succ f₁ ih =>
    intro f₂ t h1 h2 hb
    obtain ⟨f₂, rfl⟩ : ∃ k, f₂ = k + 1 := ⟨f₂ - 1, by omega⟩
    cases hf : findFirst tokenRest t with
    | none =>
      have e := rewriteTokens_no_token t hf
      have hp : findFirst placeholderRest t = none := by
        have := findFirst_placeholder_gap t [] hb
        rw [List.append_nil] at this
        rw [this, findFirst_placeholder_nil]
        rfl
      simp [pieces, found, hf, e, hp]
    | some p =>
      obtain ⟨g, mt, r⟩ := p
      obtain ⟨e, hne⟩ := findFirst_spec tokenRest proper_tokenRest _ _ _ _ hf
      obtain ⟨e2, _⟩ := rewriteTokens_token _ _ _ _ hf
      have hw := token_match_tail _ _ _ _ hf
      have hg : '{' ∉ g := by
        intro x; apply hb; rw [e]; exact List.mem_append_left _ x
      have hr : '{' ∉ r := by
        intro x; apply hb; rw [e]
        exact List.mem_append_right _ (List.mem_append_right _ x)
      obtain ⟨X, hX⟩ := findFirst_placeholder_token mt.tail (rewriteTokens 0 r) hw
      have hp : findFirst placeholderRest (rewriteTokens 0 t) =
          some (g, X, rewriteTokens 0 r) := by
        rw [e2, findFirst_placeholder_gap g _ hg, hX]
        simp
      have hl1 : r.length < f₁ := by
        have := congrArg List.length e
        have := List.length_pos.mpr hne
        simp only [List.length_append] at *
        omega
      have hl2 : (rewriteTokens 0 r).length < f₂ := by
        have := congrArg List.length e2
        simp only [List.length_append, List.length_cons] at this
        omega
      obtain ⟨i1, i2⟩ := ih f₂ r hl1 hl2 hr
      simp [pieces, found, hf, hp, i1, i2]

/-- C11 (counterexample): the path `/{x}/:id` has one parameter token and the literal
fragments `/{x}/` and the empty text; its translation `/{x}/{id}` has two brace
segments, and splitting on them gives the fragments `/`, `/` and the empty text. -/
theorem translation_fragments_counterexample :
    findAllString echoRegexp "/{x}/:id" = [":id"] ∧
      split echoRegexp "/{x}/:id" = ["/{x}/", ""] ∧
      EchoToSwagger "/{x}/:id" = .ok "/{x}/{id}" ∧
      findAllString parameterRegexp "/{x}/{id}" = ["{x}", "{id}"] ∧
      split parameterRegexp "/{x}/{id}" = ["/", "/", ""] :=
  ⟨rfl, rfl, rfl, rfl, rfl⟩

/-- C11 (amended): for a path without opening brace, with `N` matches of the token
pattern of `EchoToSwagger` and the literal fragments between them, the translation has
exactly `N` matches of the placeholder pattern of `AddLinks`, and splitting it on them
gives the same literal fragments in the same order. -/
theorem translation_keeps_fragments (path : String) (re₁ re₂ : Regexp)
    (h₁ : compile "\\:(\\w+)" = .ok re₁) (h₂ : compile "\\\x7b(.*?)\\\x7d" = .ok re₂)
    (hb : '{' ∉ path.data) :
    ∃ q, EchoToSwagger path = .ok q ∧
      (findAllString re₂ q).length = (findAllString re₁ path).length ∧
      split re₂ q = split re₁ path := by
  rw [compile_echo] at h₁
  rw [compile_parameter] at h₂
  simp only [Except.ok.injEq] at h₁ h₂
  subst h₁ h₂
  refine ⟨String.mk (rewriteTokens 0 path.data), EchoToSwagger_eq path, ?_, ?_⟩
  · rw [findAllString_eq_found parameterRegexp placeholderRest
        (fun total t => run_parameter_head total t) proper_placeholderRest,
      findAllString_eq_found echoRegexp tokenRest (fun total t => run_echo_head total t)
        proper_tokenRest]
    exact (pieces_translated _ _ _ (by omega) (by simp) hb).2
  · rw [split_eq_pieces parameterRegexp placeholderRest
        (fun total t => run_parameter_head total t) proper_placeholderRest,
      split_eq_pieces echoRegexp tokenRest (fun total t => run_echo_head total t)
        proper_tokenRest]
    exact (pieces_translated _ _ _ (by omega) (by simp) hb).1

theorem translation_keeps_fragments_witness :
    (compile "\\:(\\w+)" = .ok echoRegexp ∧ compile "\\\x7b(.*?)\\\x7d" = .ok parameterRegexp ∧
        '{' ∉ "/users/:id/posts/:post_id".data) ∧
      findAllString echoRegexp "/users/:id/posts/:post_id" = [":id", ":post_id"] ∧
      split echoRegexp "/users/:id/posts/:post_id" = ["/users/", "/posts/", ""] ∧
      ∃ q, EchoToSwagger "/users/:id/posts/:post_id" = .ok q ∧
        (findAllString parameterRegexp q).length =
          (findAllString echoRegexp "/users/:id/posts/:post_id").length ∧
        split parameterRegexp q = split echoRegexp "/users/:id/posts/:post_id" :=
  ⟨⟨rfl, rfl, by decide⟩, rfl, rfl,
    translation_keeps_fragments "/users/:id/posts/:post_id" echoRegexp parameterRegexp rfl rfl
      (by decide)⟩

theorem child_form_all (base c : String) :
    isChild base.data c.data = true ↔
      ∃ s : String, (∀ ch ∈ s.data, isSegmentChar ch = true) ∧ c = base ++ "/" ++ s := by
  rw [isChild_iff]
  constructor
  · rintro ⟨v, hv, e⟩
    refine ⟨String.mk v, hv, ?_⟩
    apply String.ext
    simpa [String.data_append] using e
  · rintro ⟨s, hs, e⟩
    refine ⟨s.data, hs, ?_⟩
    have := congrArg String.data e
    simpa [String.data_append] using this

theorem isChild_self (P : List Char) : isChild P P = false := by
  cases h : isChild P P with
  | false => rfl
  | true =>
    obtain ⟨v, _, e⟩ := (isChild_iff P P).mp h
    have := congrArg List.length e
    simp at this

theorem isChild_deeper (base s rest : List Char) :
    isChild base (base ++ '/' :: (s ++ '/' :: rest)) = false := by
  cases h : isChild base (base ++ '/' :: (s ++ '/' :: rest)) with
  | false => rfl
  | true =>
    obtain ⟨v, hv, e⟩ := (isChild_iff _ _).mp h
    have e2 : s ++ '/' :: rest = v := by
      have := List.append_cancel_left e
      simpa using this
    have : isSegmentChar '/' = true := hv '/' (by rw [← e2]; simp)
    exact absurd this (by decide)

/-- C12 (failing input): the pattern built for the root path matches the root path
itself, so that a catalog with a GET operation on `/` gets a link to `/` on the request
path `/`; for every other request path without pattern metacharacters the pattern does
not match the path itself. -/
theorem root_path_matches_itself :
    (∃ hre, compile (contextRegex "/") = .ok hre ∧ matchString hre "/" = true) ∧
      (∀ lib : Library, AddLinks lib rootCatalog "/" [] = .ok ([⟨"root", "/"⟩], none)) ∧
      ∀ P : String, P ≠ "/" → (∀ ch ∈ P.data, isMeta ch = false) →
        ∃ hre, compile (contextRegex P) = .ok hre ∧ matchString hre P = false := by
  refine ⟨⟨_, compile_rootRegex, rfl⟩, fun _ => rfl, ?_⟩
  intro P hne hP
  refine ⟨_, compile_contextRegex P hne hP, ?_⟩
  rw [matchString_chain]
  exact isChild_self P.data

/-- C13 (failing input): on the request path `/a.*` the catalog path `/a.*/c/d`, two
segments below it, is matched and gets a link; for a request path without pattern
metacharacters no catalog path two or more segments below it is matched. -/
theorem deeper_path_matched :
    EchoToSwagger "/a.*" = .ok "/a.*" ∧
      contextRegex "/a.*" = "^\\/a.*\\/[a-zA-Z{}]*$" ∧
      "/a.*/c/d" = "/a.*" ++ "/" ++ "c" ++ "/" ++ "d" ∧
      (∀ lib : Library,
        AddLinks lib deepCatalog "/a.*" [] = .ok ([⟨"deep", "/a.*/c/d"⟩], none)) ∧
      ∀ P s rest : String, (∀ ch ∈ P.data, isMeta ch = false) →
        ∃ hre, compile (contextRegex P) = .ok hre ∧
          matchString hre (P ++ "/" ++ s ++ "/" ++ rest) = false := by
  refine ⟨rfl, rfl, by decide, fun _ => rfl, ?_⟩
  intro P s rest hP
  obtain ⟨hre, hc, hm⟩ := compile_context_plain P hP
  refine ⟨hre, hc, ?_⟩
  rw [hm]
  by_cases h : P = "/"
  · subst h
    have e : ("/" ++ "/" ++ s ++ "/" ++ rest : String).data =
        [] ++ '/' :: ([] ++ '/' :: (s.data ++ '/' :: rest.data)) := by
      simp [String.data_append]
    have e0 : (childBase "/").data = [] := rfl
    rw [e, e0]
    exact isChild_deeper [] [] _
  · have e : (P ++ "/" ++ s ++ "/" ++ rest : String).data =
        P.data ++ '/' :: (s.data ++ '/' :: rest.data) := by
      simp [String.data_append]
    have e0 : (childBase P).data = P.data := by simp [childBase, h]
    rw [e, e0]
    exact isChild_deeper _ _ _

/-- C17 (failing input): the pattern built for the router path `/static/*` reads the
star as a repetition and matches the catalog path `/static/css`, which is not
`/static/*`, a slash and a segment; for a request path `P` without pattern
metacharacters the pattern matches exactly the paths `B + "/" + s` with `s` zero or more
ASCII letters and braces, `B` being `P`, or empty for the root. -/
theorem pattern_reads_path_as_syntax :
    EchoToSwagger "/static/*" = .ok "/static/*" ∧
      contextRegex "/static/*" = "^\\/static\\/*\\/[a-zA-Z{}]*$" ∧
      (∃ hre, compile (contextRegex "/static/*") = .ok hre ∧
        matchString hre "/static/css" = true) ∧
      (¬ ∃ s : String, "/static/css" = "/static/*" ++ "/" ++ s) ∧
      ∀ P : String, (∀ ch ∈ P.data, isMeta ch = false) →
        ∃ hre, compile (contextRegex P) = .ok hre ∧
          ∀ c : String, matchString hre c = true ↔
            ∃ s : String, (∀ ch ∈ s.data, isSegmentChar ch = true) ∧
              c = childBase P ++ "/" ++ s := by
  refine ⟨rfl, rfl, ?_, ?_, ?_⟩
  · exact ⟨.concat .beginText
      (literalChain (.concat (.star true (.literal '/')) childTail) "/static".data), rfl, rfl⟩
  · rintro ⟨s, h⟩
    have := congrArg String.data h
    simp [String.data_append] at this
  · intro P hP
    obtain ⟨hre, hc, hm⟩ := compile_context_plain P hP
    refine ⟨hre, hc, fun c => ?_⟩
    rw [hm, child_form_all]

end Hateoas
